import Mathlib

/-!
Verification of the polyhedron geometry pipeline (scripts/calculate_midradius.py
and scripts/convert_obj_to_format.py).

Modelling conventions:
* Python floats are modelled as exact rationals (`ℚ`); `float('inf')` is the top
  element of `WithTop ℚ`.
* `math.sqrt` is handled by tracking squared distances: every place the source
  computes `sqrt(s)` and only compares or returns the result, the embedding
  carries `s` itself.  Since `sqrt` is strictly monotone on nonnegative values,
  all comparisons (and hence the argmin selection) are unchanged; the source's
  returned distance is the square root of the embedded squared distance.
* The normalizer of convert_obj_to_format.py genuinely divides by a Euclidean
  norm, so it is embedded over `ℝ` with `Real.sqrt`.
* File contents are `List Char`; reading and writing a file is modelled by the
  pure text-to-text transformation the source applies.
* Character classes: `isPySpace` is exactly Python's whitespace set (the set
  `str.strip()` removes and `\s` matches in `str` patterns).  The digit class
  `\d` is modelled as the ASCII digits; Python's `\d` also matches non-ASCII
  Unicode decimal digits, so the theorems that quantify over arbitrary text
  (C5, C10) carry an ASCII-content hypothesis under which the classes
  coincide.
* Fallible operations (a Python exception such as `ValueError` from `float`, or
  `IndexError` from list indexing) are modelled with `Option`: `none` is a
  raised exception.
-/

set_option maxHeartbeats 2000000

/-- A 3-D point, the `[x, y, z]` lists of the Python sources. -/
@[ext] structure P3 (α : Type) where
  x : α
  y : α
  z : α
deriving DecidableEq, Repr

/-- Componentwise difference `p - q`. -/
def pSub (p q : P3 ℚ) : P3 ℚ := ⟨p.x - q.x, p.y - q.y, p.z - q.z⟩

/-- Componentwise negation. -/
def pNeg (p : P3 ℚ) : P3 ℚ := ⟨-p.x, -p.y, -p.z⟩

/-- Componentwise sum. -/
def pAdd (p q : P3 ℚ) : P3 ℚ := ⟨p.x + q.x, p.y + q.y, p.z + q.z⟩

/-- Scalar multiple. -/
def pScale (t : ℚ) (p : P3 ℚ) : P3 ℚ := ⟨t * p.x, t * p.y, t * p.z⟩

/-- Dot product. -/
def dot (p q : P3 ℚ) : ℚ := p.x * q.x + p.y * q.y + p.z * q.z

/-- Squared Euclidean norm. -/
def normSq (p : P3 ℚ) : ℚ := p.x ^ 2 + p.y ^ 2 + p.z ^ 2

/-- Squared length of the edge from `p1` to `p2` (the source's `edge_len_sq`). -/
def edgeLenSq (p1 p2 : P3 ℚ) : ℚ := normSq (pSub p2 p1)

/-- The unclamped projection parameter `t = dot(-p1, p2 - p1) / |p2 - p1|²`. -/
def tParam (p1 p2 : P3 ℚ) : ℚ := dot (pNeg p1) (pSub p2 p1) / edgeLenSq p1 p2

/-- Clamp to the unit interval, the source's `max(0, min(1, t))`. -/
def clamp01 (t : ℚ) : ℚ := max 0 (min 1 t)

/-- `closest_point_on_segment(p1, p2, origin)` from calculate_midradius.py,
with the origin fixed at `(0,0,0)` as in every call site.  Returns the closest
point on the segment together with its squared distance from the origin (the
source returns `math.sqrt` of that value). -/
def closest_point_on_segment (p1 p2 : P3 ℚ) : P3 ℚ × ℚ :=
  let edge_vec : P3 ℚ := ⟨p2.x - p1.x, p2.y - p1.y, p2.z - p1.z⟩
  let to_origin : P3 ℚ := ⟨-p1.x, -p1.y, -p1.z⟩
  let edge_len_sq : ℚ := edge_vec.x ^ 2 + edge_vec.y ^ 2 + edge_vec.z ^ 2
  if edge_len_sq < 1 / 10000000000 then
    (p1, p1.x ^ 2 + p1.y ^ 2 + p1.z ^ 2)
  else
    let t0 : ℚ := (to_origin.x * edge_vec.x + to_origin.y * edge_vec.y +
      to_origin.z * edge_vec.z) / edge_len_sq
    let t : ℚ := max 0 (min 1 t0)
    let closest : P3 ℚ := ⟨p1.x + t * edge_vec.x, p1.y + t * edge_vec.y, p1.z + t * edge_vec.z⟩
    (closest, closest.x ^ 2 + closest.y ^ 2 + closest.z ^ 2)

/-- The origin `(0,0,0)`, also the default of the safe list indexing used by
the specification-side helpers (indices are validated by hypothesis wherever
the default could matter). -/
def origin3 : P3 ℚ := ⟨0, 0, 0⟩

/-- Squared origin-distance of the segment of edge `e`, specification side. -/
def edgeDistSq (vertices : List (P3 ℚ)) (e : ℕ × ℕ) : ℚ :=
  (closest_point_on_segment (vertices.getD e.1 origin3) (vertices.getD e.2 origin3)).2

/-- Closest point to the origin on the segment of edge `e`, specification side. -/
def edgeClosest (vertices : List (P3 ℚ)) (e : ℕ × ℕ) : P3 ℚ :=
  (closest_point_on_segment (vertices.getD e.1 origin3) (vertices.getD e.2 origin3)).1

/-- The edge loop of `calculate_midradius` in calculate_midradius.py: running
minimum `min_distance` (initially `float('inf')`, here `⊤`), updated on strict
`<` together with the winning edge and its closest point.  Indexing a missing
vertex (Python `IndexError`) is `none`. -/
def midloop (vertices : List (P3 ℚ)) :
    List (ℕ × ℕ) → WithTop ℚ → Option (ℕ × ℕ) → Option (P3 ℚ) →
      Option (WithTop ℚ × Option (ℕ × ℕ) × Option (P3 ℚ))
  | [], min_distance, min_edge, min_point => some (min_distance, min_edge, min_point)
  | edge :: rest, min_distance, min_edge, min_point =>
    match vertices[edge.1]?, vertices[edge.2]? with
    | some p1, some p2 =>
      let r := closest_point_on_segment p1 p2
      if ((r.2 : ℚ) : WithTop ℚ) < min_distance then
        midloop vertices rest ((r.2 : ℚ) : WithTop ℚ) (some edge) (some r.1)
      else
        midloop vertices rest min_distance min_edge min_point
    | _, _ => none

/-- `calculate_midradius(vertices, edges)` from calculate_midradius.py: the
minimum (squared, see the module comment) origin-distance over all edges,
together with the edge and the closest point that attained it. -/
def calculate_midradius (vertices : List (P3 ℚ)) (edges : List (ℕ × ℕ)) :
    Option (WithTop ℚ × Option (ℕ × ℕ) × Option (P3 ℚ)) :=
  midloop vertices edges ⊤ none none

/-- Minimum of the per-edge squared distances as a `WithTop ℚ` (`⊤` when the
edge list is empty), specification side. -/
def minDists (vertices : List (P3 ℚ)) (edges : List (ℕ × ℕ)) : WithTop ℚ :=
  (edges.map fun e => ((edgeDistSq vertices e : ℚ) : WithTop ℚ)).foldr min ⊤

/-- Canonical undirected edge, smaller index first (the source's
`(min(v1, v2), max(v1, v2))`). -/
def canonPair (v1 v2 : ℕ) : ℕ × ℕ := (min v1 v2, max v1 v2)

/-- Strict lexicographic order on index pairs: the order of Python's `sorted`
on 2-tuples, strict because the collection is duplicate-free. -/
def lexLt (a b : ℕ × ℕ) : Prop := a.1 < b.1 ∨ (a.1 = b.1 ∧ a.2 < b.2)

/-- Boolean test deciding `lexLt`. -/
def lexLtb (a b : ℕ × ℕ) : Bool := a.1 < b.1 || (a.1 == b.1 && a.2 < b.2)

/-- Insert a pair into a strictly sorted duplicate-free list, keeping it
strictly sorted.  Folding this over all contributed pairs is extensionally
exactly the source's `sorted(list(set(...)))`: the distinct pairs in strictly
increasing lexicographic order. -/
def insertEdge (e : ℕ × ℕ) : List (ℕ × ℕ) → List (ℕ × ℕ)
  | [] => [e]
  | x :: xs =>
    if lexLtb e x then e :: x :: xs
    else if e = x then x :: xs
    else x :: insertEdge e xs

/-- All canonical pairs contributed by the faces: for each face, each
consecutive index pair, including the wrap-around pair `(last, first)`
(the source's `face[(i + 1) % len(face)]`). -/
def edgePairs (faces : List (List ℕ)) : List (ℕ × ℕ) :=
  (faces.map fun face =>
    (List.range face.length).map fun i =>
      canonPair (face.getD i 0) (face.getD ((i + 1) % face.length) 0)).flatten

/-- `faces_to_edges(faces)` from convert_obj_to_format.py: the deduplicated
canonical pairs, sorted ascending by `(first, second)`. -/
def faces_to_edges (faces : List (List ℕ)) : List (ℕ × ℕ) :=
  (edgePairs faces).foldl (fun acc e => insertEdge e acc) []

namespace ObjConvert

/-- The edge loop of `calculate_midradius` in convert_obj_to_format.py: the
same per-edge computation as calculate_midradius.py's, written inline in the
source, keeping only the running minimum (squared) distance. -/
def midloop (vertices : List (P3 ℚ)) : List (ℕ × ℕ) → WithTop ℚ → Option (WithTop ℚ)
  | [], min_distance => some min_distance
  | edge :: rest, min_distance =>
    match vertices[edge.1]?, vertices[edge.2]? with
    | some p1, some p2 =>
      let edge_vec : P3 ℚ := ⟨p2.x - p1.x, p2.y - p1.y, p2.z - p1.z⟩
      let to_origin : P3 ℚ := ⟨-p1.x, -p1.y, -p1.z⟩
      let edge_len_sq : ℚ := edge_vec.x ^ 2 + edge_vec.y ^ 2 + edge_vec.z ^ 2
      let distance : ℚ :=
        if edge_len_sq < 1 / 10000000000 then p1.x ^ 2 + p1.y ^ 2 + p1.z ^ 2
        else
          let t0 : ℚ := (to_origin.x * edge_vec.x + to_origin.y * edge_vec.y +
            to_origin.z * edge_vec.z) / edge_len_sq
          let t : ℚ := max 0 (min 1 t0)
          (p1.x + t * edge_vec.x) ^ 2 + (p1.y + t * edge_vec.y) ^ 2 +
            (p1.z + t * edge_vec.z) ^ 2
      if ((distance : ℚ) : WithTop ℚ) < min_distance then
        midloop vertices rest ((distance : ℚ) : WithTop ℚ)
      else
        midloop vertices rest min_distance
    | _, _ => none

/-- `calculate_midradius(vertices, edges)` from convert_obj_to_format.py. -/
def calculate_midradius (vertices : List (P3 ℚ)) (edges : List (ℕ × ℕ)) :
    Option (WithTop ℚ) :=
  midloop vertices edges ⊤

end ObjConvert

/-- The canonical cube fixture: 8 vertices at `(±0.5, ±0.5, ±0.5)`. -/
def cubeVertices : List (P3 ℚ) :=
  [⟨-(1/2), -(1/2), -(1/2)⟩, ⟨1/2, -(1/2), -(1/2)⟩, ⟨1/2, 1/2, -(1/2)⟩, ⟨-(1/2), 1/2, -(1/2)⟩,
   ⟨-(1/2), -(1/2), 1/2⟩, ⟨1/2, -(1/2), 1/2⟩, ⟨1/2, 1/2, 1/2⟩, ⟨-(1/2), 1/2, 1/2⟩]

/-- The 6 square faces of the cube fixture. -/
def cubeFaces : List (List ℕ) :=
  [[0, 1, 2, 3], [4, 5, 6, 7], [0, 1, 5, 4], [1, 2, 6, 5], [2, 3, 7, 6], [3, 0, 4, 7]]

/-- Euclidean norm of a real point (`math.sqrt(sum(v[i] ** 2))`). -/
noncomputable def vnorm (v : P3 ℝ) : ℝ := Real.sqrt (v.x ^ 2 + v.y ^ 2 + v.z ^ 2)

/-- Componentwise mean of a vertex list, the source's `centroid` (the source
only computes it on non-empty lists). -/
noncomputable def centroid (vs : List (P3 ℝ)) : P3 ℝ :=
  ⟨((vs.map P3.x).sum) / vs.length, ((vs.map P3.y).sum) / vs.length,
   ((vs.map P3.z).sum) / vs.length⟩

/-- The recentered list, the source's `centered`: every vertex minus the
centroid. -/
noncomputable def centered (vs : List (P3 ℝ)) : List (P3 ℝ) :=
  vs.map fun v => ⟨v.x - (centroid vs).x, v.y - (centroid vs).y, v.z - (centroid vs).z⟩

/-- Python's `max` over the norms of a list, the source's `max_dist` (`0` on
the empty list, on which the source never calls it). -/
noncomputable def maxDist (vs : List (P3 ℝ)) : ℝ :=
  match vs with
  | [] => 0
  | v :: t => (t.map vnorm).foldl max (vnorm v)

/-- `normalize_vertices(vertices)` from convert_obj_to_format.py: recenter on
the centroid, and if the maximum distance from the origin is positive divide
every coordinate by it; otherwise (degenerate single-point mesh) leave the
list merely recentered.  The empty list is returned unchanged. -/
noncomputable def normalize_vertices (vs : List (P3 ℝ)) : List (P3 ℝ) :=
  match vs with
  | [] => []
  | v :: t =>
    let c := centered (v :: t)
    let m := maxDist c
    if 0 < m then c.map fun w => ⟨w.x / m, w.y / m, w.z / m⟩ else c

/-- Python's whitespace: the characters `str.strip()` strips and the `str`
pattern `\s` matches (`str.isspace()`), by code point — U+0009–U+000D,
U+001C–U+001F, the space U+0020, U+0085, U+00A0, U+1680, U+2000–U+200A,
U+2028, U+2029, U+202F, U+205F and U+3000. -/
def isPySpace (c : Char) : Bool :=
  (9 ≤ c.toNat && c.toNat ≤ 13) || (28 ≤ c.toNat && c.toNat ≤ 32) ||
  c.toNat == 133 || c.toNat == 160 || c.toNat == 5760 ||
  (8192 ≤ c.toNat && c.toNat ≤ 8202) || c.toNat == 8232 || c.toNat == 8233 ||
  c.toNat == 8239 || c.toNat == 8287 || c.toNat == 12288

/-- Character class `[\d.]` of the midradius patterns, with `\d` as the ASCII
digits `0`–`9`.  Python's `str`-pattern `\d` also matches the non-ASCII
Unicode decimal digits, which this model omits, so the theorems below that
quantify over arbitrary text carry an ASCII-content hypothesis under which the
two classes coincide. -/
def isNum (c : Char) : Bool := c.isDigit || c == '.'

/-- Character class `[-\d.]` of the vertex pattern (`\d` as ASCII digits,
see `isNum`). -/
def isNumNeg (c : Char) : Bool := c.isDigit || c == '.' || c == '-'

/-- `text.split(sep)` for a one-character separator, as in Python. -/
def splitOnC (sep : Char) : List Char → List (List Char)
  | [] => [[]]
  | c :: rest =>
    if c = sep then [] :: splitOnC sep rest
    else
      match splitOnC sep rest with
      | [] => [[c]]
      | l :: ls => (c :: l) :: ls

/-- `sep.join(pieces)`, the inverse of `splitOnC` on separator-free pieces. -/
def joinSep (sep : Char) : List (List Char) → List Char
  | [] => []
  | [l] => l
  | l :: ls => l ++ sep :: joinSep sep ls

/-- `line.strip()` (both ends). -/
def stripChars (l : List Char) : List Char :=
  ((l.dropWhile isPySpace).reverse.dropWhile isPySpace).reverse

/-- `s.startswith(pat)` (first argument is the pattern). -/
def leadsWith : List Char → List Char → Bool
  | [], _ => true
  | _ :: _, [] => false
  | p :: ps, c :: cs => p == c && leadsWith ps cs

/-- Numeric value of a digit character. -/
def charVal (c : Char) : ℕ := c.toNat - 48

/-- The digit character of `n < 10`. -/
def digitChar (n : ℕ) : Char := Char.ofNat (48 + n)

/-- Decimal value of a digit string (the relevant fragment of Python `int`). -/
def natOfDigits (ds : List Char) : ℕ := ds.foldl (fun a c => 10 * a + charVal c) 0

/-- Decimal digits of `n` (most significant first) prepended to `acc`, by
repeated division; the fuel argument (any bound `≥ n`) keeps the recursion
structural so that concrete renderings reduce in the kernel. -/
def natDigitsGo : ℕ → ℕ → List Char → List Char
  | 0, n, acc => digitChar n :: acc
  | fuel + 1, n, acc =>
    if n < 10 then digitChar n :: acc
    else natDigitsGo fuel (n / 10) (digitChar (n % 10) :: acc)

/-- `str(n)` for a natural number. -/
def natDigits (n : ℕ) : List Char := natDigitsGo n n []

/-- Round half-to-even of a nonnegative rational to a natural number: the
rounding of Python's fixed-point float formatting, on the exact rationals that
model the source's floats. -/
def rnd4 (x : ℚ) : ℕ :=
  let f : ℕ := (Int.floor x).toNat
  let r : ℚ := x - f
  if r < 1 / 2 then f
  else if 1 / 2 < r then f + 1
  else if f % 2 = 0 then f else f + 1

/-- The 4 fixed fraction digits of `m % 10⁴`, zero padded. -/
def pad4 (m : ℕ) : List Char :=
  [digitChar (m / 1000 % 10), digitChar (m / 100 % 10), digitChar (m / 10 % 10),
   digitChar (m % 10)]

/-- Rendering of the scaled magnitude `n` (value `n / 10⁴`) with the dot. -/
def digitsDot (n : ℕ) : List Char := natDigits (n / 10000) ++ '.' :: pad4 (n % 10000)

/-- Python's `f"{q:.4f}"`: sign, integer digits, dot, 4 fraction digits. -/
def fmt4 (q : ℚ) : List Char :=
  if q < 0 then '-' :: digitsDot (rnd4 (-q * 10000)) else digitsDot (rnd4 (q * 10000))

/-- The rational value `fmt4` prints: `q` rounded to 4 decimal digits. -/
def round4 (q : ℚ) : ℚ :=
  if q < 0 then -((rnd4 (-q * 10000) : ℚ) / 10000) else (rnd4 (q * 10000) : ℚ) / 10000

/-- A point rounded componentwise to the stored 4-decimal precision. -/
def roundP3 (v : P3 ℚ) : P3 ℚ := ⟨round4 v.x, round4 v.y, round4 v.z⟩

/-- Value of an unsigned decimal numeral `int[.frac]` over digits and at most
one dot. -/
def ratOfDigits (s : List Char) : ℚ :=
  let ip := s.takeWhile fun c => !(c == '.')
  let fp := (s.dropWhile fun c => !(c == '.')).drop 1
  (natOfDigits ip : ℚ) + (natOfDigits fp : ℚ) / 10 ^ fp.length

/-- The fragment of Python `float(s)` reachable from the parsing regexes'
captures (strings over digits, dots, minus): digits with at most one dot and
at least one digit; no sign allowed here (handled by `pythonFloat?`).
`none` models a raised `ValueError`. -/
def pyCore (s : List Char) : Option ℚ :=
  if s ≠ [] ∧ s.all isNum = true ∧ s.count '.' ≤ 1 ∧ s.any Char.isDigit = true then
    some (ratOfDigits s)
  else none

/-- Python `float(s)` on regex captures: an optional leading minus then an
unsigned numeral. -/
def pythonFloat? (s : List Char) : Option ℚ :=
  if s.head? = some '-' then Option.map Neg.neg (pyCore (s.drop 1)) else pyCore s

/-- The vertex-line regex `^\d+:([-\d.]+),([-\d.]+),([-\d.]+)$`: a nonempty
digit prefix, a colon, then exactly three comma-separated nonempty groups over
`[-\d.]` (the class contains neither `:` nor `,`, so the backtracking regex
match is exactly this split).  `\d` is modelled as the ASCII digits, which on
ASCII text coincides with Python's Unicode-aware `\d` (see `isNum`). -/
def matchVertexLine (line : List Char) :
    Option (List Char × List Char × List Char) :=
  let ds := line.takeWhile Char.isDigit
  if ds = [] then none
  else
    match line.drop ds.length with
    | ':' :: rest =>
      match splitOnC ',' rest with
      | [g1, g2, g3] =>
        if (!g1.isEmpty) && g1.all isNumNeg && (!g2.isEmpty) && g2.all isNumNeg &&
            (!g3.isEmpty) && g3.all isNumNeg then
          some (g1, g2, g3)
        else none
      | _ => none
    | _ => none

/-- The edge-line regex `^\d+:(\d+),(\d+)$` with the `int(...)` conversions
(which cannot fail on digit strings). -/
def matchEdgeLine (line : List Char) : Option (ℕ × ℕ) :=
  let ds := line.takeWhile Char.isDigit
  if ds = [] then none
  else
    match line.drop ds.length with
    | ':' :: rest =>
      match splitOnC ',' rest with
      | [g1, g2] =>
        if (!g1.isEmpty) && g1.all Char.isDigit && (!g2.isEmpty) &&
            g2.all Char.isDigit then
          some (natOfDigits g1, natOfDigits g2)
        else none
      | _ => none
    | _ => none

/-- The section the line loop of `parse_polyhedron_file` is in. -/
inductive Sect
  | noSec
  | vertSec
  | edgeSec
  | midSec
deriving DecidableEq

/-- The loop state of `parse_polyhedron_file`. -/
structure ParseSt where
  sec : Sect
  vertices : List (P3 ℚ)
  edges : List (ℕ × ℕ)
  midradius : Option ℚ
deriving DecidableEq

/-- One iteration of the line loop of `parse_polyhedron_file` in
calculate_midradius.py: strip, check the three section headers, skip blank
lines, else parse by the current section's pattern, silently skipping
non-matching lines.  `none` models a `ValueError` raised by `float` on a
matching line whose capture is not a valid numeral. -/
def parseLine (st : ParseSt) (raw : List Char) : Option ParseSt :=
  let line := stripChars raw
  if leadsWith ("VERTICES:".toList) line then some { st with sec := Sect.vertSec }
  else if leadsWith ("EDGES:".toList) line then some { st with sec := Sect.edgeSec }
  else if leadsWith ("MIDRADIUS:".toList) line then some { st with sec := Sect.midSec }
  else if line.isEmpty then some st
  else
    match st.sec with
    | Sect.vertSec =>
      match matchVertexLine line with
      | some (g1, g2, g3) =>
        match pythonFloat? g1, pythonFloat? g2, pythonFloat? g3 with
        | some a, some b, some c =>
          some { st with vertices := st.vertices ++ [⟨a, b, c⟩] }
        | _, _, _ => none
      | none => some st
    | Sect.edgeSec =>
      match matchEdgeLine line with
      | some e => some { st with edges := st.edges ++ [e] }
      | none => some st
    | Sect.midSec =>
      if (!line.isEmpty) && line.all isNum then
        match pythonFloat? line with
        | some m => some { st with midradius := some m }
        | none => none
      else some st
    | Sect.noSec => some st

/-- `parse_polyhedron_file` from calculate_midradius.py, on the file's text:
split on newlines and fold the line loop; `none` models a raised error. -/
def parse_polyhedron_file (content : List Char) :
    Option (List (P3 ℚ) × List (ℕ × ℕ) × Option ℚ) :=
  ((splitOnC '\n' content).foldlM parseLine ⟨Sect.noSec, [], [], none⟩).map
    fun st => (st.vertices, st.edges, st.midradius)

/-- One vertex line `f"{i}:{x:.4f},{y:.4f},{z:.4f}"`. -/
def vertexLine (i : ℕ) (v : P3 ℚ) : List Char :=
  natDigits i ++ ':' :: (fmt4 v.x ++ ',' :: (fmt4 v.y ++ ',' :: fmt4 v.z))

/-- The vertex lines from index `i` on (the source's `enumerate`). -/
def vertexLines (i : ℕ) : List (P3 ℚ) → List (List Char)
  | [] => []
  | v :: t => vertexLine i v :: vertexLines (i + 1) t

/-- One edge line `f"{i}:{v1},{v2}"`. -/
def edgeLine (i : ℕ) (e : ℕ × ℕ) : List Char :=
  natDigits i ++ ':' :: (natDigits e.1 ++ ',' :: natDigits e.2)

/-- The edge lines from index `i` on. -/
def edgeLines (i : ℕ) : List (ℕ × ℕ) → List (List Char)
  | [] => []
  | e :: t => edgeLine i e :: edgeLines (i + 1) t

/-- `convert_to_format(vertices, edges, midradius)` from
convert_obj_to_format.py: the full record text, lines joined by newlines. -/
def convert_to_format (vertices : List (P3 ℚ)) (edges : List (ℕ × ℕ))
    (midradius : ℚ) : List Char :=
  joinSep '\n'
    (("VERTICES:".toList) :: vertexLines 0 vertices ++ [[]] ++
      ("EDGES:".toList) :: edgeLines 0 edges ++ [[]] ++
      [("MIDRADIUS:".toList), fmt4 midradius])

/-- A line none of whose regex-matched captures makes `float` raise; decoding
an ASCII text all of whose lines are good never errors, whatever the sections
(on ASCII text the model's character classes coincide with Python's). -/
def goodLine (raw : List Char) : Bool :=
  let line := stripChars raw
  (match matchVertexLine line with
   | some (g1, g2, g3) =>
     (pythonFloat? g1).isSome && (pythonFloat? g2).isSome && (pythonFloat? g3).isSome
   | none => true) &&
  (if (!line.isEmpty) && line.all isNum then (pythonFloat? line).isSome else true)

/-- Index of the last `'\n'` in a list, if any. -/
def lastNl : List Char → Option ℕ
  | [] => none
  | c :: rest =>
    match lastNl rest with
    | some k => some (k + 1)
    | none => if c = '\n' then some 0 else none

/-- Length of the match of the regex `(MIDRADIUS:\s*\n)([\d.]+)` at the head
of `s`, if it matches there: the literal header (10 characters), then the
greedy `\s*\n` — which consumes up to and including the last newline of the
maximal whitespace run — then a maximal nonempty run of `[\d.]` (with `\d` as
ASCII digits, faithful on ASCII text; see `isNum`). -/
def matchMidLen (s : List Char) : Option ℕ :=
  if leadsWith ("MIDRADIUS:".toList) s then
    let rest := s.drop 10
    match lastNl (rest.takeWhile isPySpace) with
    | some k =>
      let ds := (rest.drop (k + 1)).takeWhile isNum
      if ds.isEmpty then none else some (10 + (k + 1) + ds.length)
    | none => none
  else none

/-- `re.sub(r'(MIDRADIUS:\s*\n)([\d.]+)', rf'MIDRADIUS:\n{new:.4f}', content)`
of `update_midradius_in_file`: scan left to right; at a match emit the literal
replacement (which does not reuse the matched header text) and continue after
the match, otherwise keep the character and move on. -/
def substMid (nr : ℚ) (s : List Char) : List Char :=
  match h : matchMidLen s with
  | some n => ("MIDRADIUS:".toList) ++ '\n' :: fmt4 nr ++ substMid nr (s.drop n)
  | none =>
    match s with
    | [] => []
    | c :: rest => c :: substMid nr rest
termination_by s.length
decreasing_by
  · have hne : s ≠ [] := by
      intro hnil
      rw [hnil] at h
      simp [matchMidLen, leadsWith] at h
    have hpos : 0 < n := by
      simp only [matchMidLen] at h
      split at h
      · split at h
        · split at h
          · exact absurd h (by simp)
          · have := Option.some.inj h
            omega
        · exact absurd h (by simp)
      · exact absurd h (by simp)
    have hlen : 0 < s.length := List.length_pos.mpr hne
    simp only [List.length_drop]
    omega
  · simp

/-- `update_midradius_in_file(filepath, new_midradius)` from
calculate_midradius.py, as the pure content transformation it applies between
reading and rewriting the file. -/
def update_midradius_in_file (new_midradius : ℚ) (content : List Char) : List Char :=
  substMid new_midradius content

/-- Whether the update pattern matches anywhere in the text. -/
def hasMid : List Char → Bool
  | [] => false
  | c :: rest => (matchMidLen (c :: rest)).isSome || hasMid rest

/-- C1: for `|p2 - p1|² ≥ 1e-10` the evaluator returns `p1 + clamp01(t)·(p2-p1)`
with `t = dot(-p1, p2-p1)/|p2-p1|²`, paired with that point's squared Euclidean
norm (the source returns the norm itself, the square root of this value); for
`|p2 - p1|² < 1e-10` it returns `p1` and `p1`'s squared norm; and in every case
the returned point is `p1 + t·(p2-p1)` for some parameter `t ∈ [0, 1]`. -/
theorem closest_point_on_segment_spec (p1 p2 : P3 ℚ) :
    ((1 / 10000000000 : ℚ) ≤ edgeLenSq p1 p2 →
      closest_point_on_segment p1 p2 =
        (pAdd p1 (pScale (clamp01 (tParam p1 p2)) (pSub p2 p1)),
         normSq (pAdd p1 (pScale (clamp01 (tParam p1 p2)) (pSub p2 p1))))) ∧
    (edgeLenSq p1 p2 < 1 / 10000000000 →
      closest_point_on_segment p1 p2 = (p1, normSq p1)) ∧
    (∃ t : ℚ, 0 ≤ t ∧ t ≤ 1 ∧
      (closest_point_on_segment p1 p2).1 = pAdd p1 (pScale t (pSub p2 p1))) := by
  have hlen : edgeLenSq p1 p2 =
      (p2.x - p1.x) ^ 2 + (p2.y - p1.y) ^ 2 + (p2.z - p1.z) ^ 2 := by
    simp [edgeLenSq, normSq, pSub]
  refine ⟨fun h => ?_, fun h => ?_, ?_⟩
  · rw [hlen] at h
    simp only [closest_point_on_segment, if_neg (not_lt.mpr h)]
    rfl
  · rw [hlen] at h
    simp only [closest_point_on_segment, if_pos h]
    rfl
  · by_cases h : (p2.x - p1.x) ^ 2 + (p2.y - p1.y) ^ 2 + (p2.z - p1.z) ^ 2 <
        1 / 10000000000
    · refine ⟨0, le_refl 0, by norm_num, ?_⟩
      simp only [closest_point_on_segment, if_pos h]
      ext <;> simp [pAdd, pScale, pSub]
    · refine ⟨clamp01 ((-p1.x * (p2.x - p1.x) + -p1.y * (p2.y - p1.y) +
        -p1.z * (p2.z - p1.z)) /
          ((p2.x - p1.x) ^ 2 + (p2.y - p1.y) ^ 2 + (p2.z - p1.z) ^ 2)), ?_, ?_, ?_⟩
      · exact le_max_left 0 _
      · exact max_le (by norm_num) (min_le_left 1 _)
      · simp only [closest_point_on_segment, if_neg h]
        rfl

/-- Witness for C1 at `p1 = (1,0,0)`, `p2 = (0,1,0)`: the edge length squared
is `2 ≥ 1e-10` and the non-degenerate branch applies. -/
theorem closest_point_on_segment_spec_witness :
    (1 / 10000000000 : ℚ) ≤ edgeLenSq ⟨1, 0, 0⟩ ⟨0, 1, 0⟩ ∧
    closest_point_on_segment ⟨1, 0, 0⟩ ⟨0, 1, 0⟩ =
      (pAdd ⟨1, 0, 0⟩ (pScale (clamp01 (tParam ⟨1, 0, 0⟩ ⟨0, 1, 0⟩))
        (pSub ⟨0, 1, 0⟩ ⟨1, 0, 0⟩)),
       normSq (pAdd ⟨1, 0, 0⟩ (pScale (clamp01 (tParam ⟨1, 0, 0⟩ ⟨0, 1, 0⟩))
        (pSub ⟨0, 1, 0⟩ ⟨1, 0, 0⟩)))) :=
  ⟨by norm_num [edgeLenSq, normSq, pSub],
   (closest_point_on_segment_spec ⟨1, 0, 0⟩ ⟨0, 1, 0⟩).1
     (by norm_num [edgeLenSq, normSq, pSub])⟩

theorem minDists_nil (vs : List (P3 ℚ)) : minDists vs [] = ⊤ := rfl

theorem minDists_cons (vs : List (P3 ℚ)) (e : ℕ × ℕ) (t : List (ℕ × ℕ)) :
    minDists vs (e :: t) = min ((edgeDistSq vs e : ℚ) : WithTop ℚ) (minDists vs t) := rfl

theorem minDists_le (vs : List (P3 ℚ)) :
    ∀ es : List (ℕ × ℕ), ∀ e ∈ es, minDists vs es ≤ ((edgeDistSq vs e : ℚ) : WithTop ℚ) := by
  intro es
  induction es with
  | nil => intro e he; exact absurd he (List.not_mem_nil e)
  | cons a t ih =>
    intro e he
    rcases List.mem_cons.mp he with h | h
    · rw [h, minDists_cons]; exact min_le_left _ _
    · exact le_trans (by rw [minDists_cons]; exact min_le_right _ _) (ih e h)

theorem minDists_lt_top (vs : List (P3 ℚ)) (es : List (ℕ × ℕ)) (h : es ≠ []) :
    minDists vs es < ⊤ := by
  cases es with
  | nil => exact absurd rfl h
  | cons e t =>
    rw [minDists_cons]
    exact lt_of_le_of_lt (min_le_left _ _) (WithTop.coe_lt_top _)

theorem midloop_cons (vs : List (P3 ℚ)) (e : ℕ × ℕ) (t : List (ℕ × ℕ))
    (m : WithTop ℚ) (me : Option (ℕ × ℕ)) (mp : Option (P3 ℚ))
    (h1 : e.1 < vs.length) (h2 : e.2 < vs.length) :
    midloop vs (e :: t) m me mp =
      (if ((edgeDistSq vs e : ℚ) : WithTop ℚ) < m then
        midloop vs t ((edgeDistSq vs e : ℚ) : WithTop ℚ) (some e)
          (some (edgeClosest vs e))
      else midloop vs t m me mp) := by
  have hp1 : vs[e.1]? = some (vs.getD e.1 origin3) := by
    rw [List.getElem?_eq_getElem h1, List.getD_eq_getElem vs origin3 h1]
  have hp2 : vs[e.2]? = some (vs.getD e.2 origin3) := by
    rw [List.getElem?_eq_getElem h2, List.getD_eq_getElem vs origin3 h2]
  simp only [midloop, hp1, hp2]
  rfl

theorem midloop_spec (vs : List (P3 ℚ)) :
    ∀ (es : List (ℕ × ℕ)) (m : WithTop ℚ) (me : Option (ℕ × ℕ)) (mp : Option (P3 ℚ)),
      (∀ e ∈ es, e.1 < vs.length ∧ e.2 < vs.length) →
      ∃ E P, midloop vs es m me mp = some (min m (minDists vs es), E, P) ∧
        ((minDists vs es < m ∧ ∃ k, k < es.length ∧
            E = some (es.getD k (0, 0)) ∧
            P = some (edgeClosest vs (es.getD k (0, 0))) ∧
            ((edgeDistSq vs (es.getD k (0, 0)) : ℚ) : WithTop ℚ) = minDists vs es ∧
            ∀ j, j < k →
              minDists vs es < ((edgeDistSq vs (es.getD j (0, 0)) : ℚ) : WithTop ℚ)) ∨
          (¬ minDists vs es < m ∧ E = me ∧ P = mp)) := by
  intro es
  induction es with
  | nil =>
    intro m me mp _
    refine ⟨me, mp, ?_, Or.inr ⟨not_top_lt, rfl, rfl⟩⟩
    simp [midloop, minDists_nil]
  | cons e t ih =>
    intro m me mp hv
    have h1 : e.1 < vs.length ∧ e.2 < vs.length := hv e (List.mem_cons_self e t)
    have hvt : ∀ e' ∈ t, e'.1 < vs.length ∧ e'.2 < vs.length :=
      fun e' he' => hv e' (List.mem_cons_of_mem e he')
    rw [midloop_cons vs e t m me mp h1.1 h1.2]
    by_cases hlt : ((edgeDistSq vs e : ℚ) : WithTop ℚ) < m
    · rw [if_pos hlt]
      obtain ⟨E, P, heq, hdisj⟩ :=
        ih ((edgeDistSq vs e : ℚ) : WithTop ℚ) (some e) (some (edgeClosest vs e)) hvt
      have hmin : min m (minDists vs (e :: t)) = minDists vs (e :: t) := by
        rw [minDists_cons]
        exact min_eq_right (le_trans (min_le_left _ _) hlt.le)
      refine ⟨E, P, ?_, Or.inl ⟨?_, ?_⟩⟩
      · rw [heq, hmin, minDists_cons]
      · rw [minDists_cons]
        exact lt_of_le_of_lt (min_le_left _ _) hlt
      · rcases hdisj with ⟨hmtD, k, hk, hE, hP, hdk, hfirst⟩ | ⟨hnlt, hE, hP⟩
        · have hmm : minDists vs (e :: t) = minDists vs t := by
            rw [minDists_cons]; exact min_eq_right hmtD.le
          refine ⟨k + 1, by simpa using Nat.succ_lt_succ hk, ?_, ?_, ?_, ?_⟩
          · rw [List.getD_cons_succ]; exact hE
          · rw [List.getD_cons_succ]; exact hP
          · rw [List.getD_cons_succ, hmm]; exact hdk
          · intro j hj
            cases j with
            | zero => rw [List.getD_cons_zero, hmm]; exact hmtD
            | succ j' =>
              rw [List.getD_cons_succ, hmm]
              exact hfirst j' (Nat.lt_of_succ_lt_succ hj)
        · have hDle : ((edgeDistSq vs e : ℚ) : WithTop ℚ) ≤ minDists vs t := not_lt.mp hnlt
          have hmm : minDists vs (e :: t) = ((edgeDistSq vs e : ℚ) : WithTop ℚ) := by
            rw [minDists_cons]; exact min_eq_left hDle
          refine ⟨0, Nat.succ_pos _, ?_, ?_, ?_, ?_⟩
          · rw [List.getD_cons_zero]; exact hE
          · rw [List.getD_cons_zero]; exact hP
          · rw [List.getD_cons_zero, hmm]
          · intro j hj; exact absurd hj (Nat.not_lt_zero j)
    · rw [if_neg hlt]
      have hmD : m ≤ ((edgeDistSq vs e : ℚ) : WithTop ℚ) := not_lt.mp hlt
      obtain ⟨E, P, heq, hdisj⟩ := ih m me mp hvt
      have hmin : min m (minDists vs (e :: t)) = min m (minDists vs t) := by
        rw [minDists_cons, ← min_assoc, min_eq_left hmD]
      refine ⟨E, P, by rw [heq, hmin], ?_⟩
      rcases hdisj with ⟨hmtm, k, hk, hE, hP, hdk, hfirst⟩ | ⟨hnlt, hE, hP⟩
      · have hmm : minDists vs (e :: t) = minDists vs t := by
          rw [minDists_cons]
          exact min_eq_right (le_trans hmtm.le hmD)
        refine Or.inl ⟨by rw [hmm]; exact hmtm, k + 1, by simpa using Nat.succ_lt_succ hk,
          ?_, ?_, ?_, ?_⟩
        · rw [List.getD_cons_succ]; exact hE
        · rw [List.getD_cons_succ]; exact hP
        · rw [List.getD_cons_succ, hmm]; exact hdk
        · intro j hj
          cases j with
          | zero =>
            rw [List.getD_cons_zero, hmm]
            exact lt_of_lt_of_le hmtm hmD
          | succ j' =>
            rw [List.getD_cons_succ, hmm]
            exact hfirst j' (Nat.lt_of_succ_lt_succ hj)
      · refine Or.inr ⟨?_, hE, hP⟩
        intro hcon
        rw [minDists_cons] at hcon
        rcases min_lt_iff.mp hcon with h | h
        · exact hlt h
        · exact hnlt h

/-- C2: on a non-empty edge list with valid vertex indices,
`calculate_midradius` returns the minimum over all edges of the
segment-to-origin distance of `closest_point_on_segment`, together with the
edge and closest point that attained it; the running minimum is updated only on
strict decrease, so on a tie the first edge in iteration order wins (every
earlier edge is strictly larger than the returned minimum). -/
theorem calculate_midradius_spec (vs : List (P3 ℚ)) (es : List (ℕ × ℕ))
    (hne : es ≠ []) (hv : ∀ e ∈ es, e.1 < vs.length ∧ e.2 < vs.length) :
    ∃ (d : ℚ) (e : ℕ × ℕ) (p : P3 ℚ),
      calculate_midradius vs es = some (((d : ℚ) : WithTop ℚ), some e, some p) ∧
      e ∈ es ∧ edgeDistSq vs e = d ∧ p = edgeClosest vs e ∧
      (∀ e' ∈ es, d ≤ edgeDistSq vs e') ∧
      ∃ k, k < es.length ∧ es.getD k (0, 0) = e ∧
        ∀ j, j < k → d < edgeDistSq vs (es.getD j (0, 0)) := by
  obtain ⟨E, P, heq, hdisj⟩ := midloop_spec vs es ⊤ none none hv
  have htop : minDists vs es < ⊤ := minDists_lt_top vs es hne
  rcases hdisj with ⟨-, k, hk, hE, hP, hdk, hfirst⟩ | ⟨hn, -, -⟩
  · refine ⟨edgeDistSq vs (es.getD k (0, 0)), es.getD k (0, 0),
      edgeClosest vs (es.getD k (0, 0)), ?_, ?_, rfl, ?_, ?_, k, hk, rfl, ?_⟩
    · rw [calculate_midradius, heq, hE, hP, min_eq_right le_top, ← hdk]
    · rw [List.getD_eq_getElem es (0, 0) hk]
      exact List.getElem_mem hk
    · rfl
    · intro e' he'
      exact WithTop.coe_le_coe.mp (hdk.trans_le (minDists_le vs es e' he'))
    · intro j hj
      exact WithTop.coe_lt_coe.mp (hdk ▸ hfirst j hj)
  · exact absurd htop hn

/-- Witness for C2: a single valid edge between two concrete vertices. -/
theorem calculate_midradius_spec_witness :
    (([((0 : ℕ), (1 : ℕ))] : List (ℕ × ℕ)) ≠ [] ∧
      (∀ e ∈ ([((0 : ℕ), (1 : ℕ))] : List (ℕ × ℕ)),
        e.1 < ([(⟨1, 0, 0⟩ : P3 ℚ), ⟨0, 1, 0⟩] : List (P3 ℚ)).length ∧
        e.2 < ([(⟨1, 0, 0⟩ : P3 ℚ), ⟨0, 1, 0⟩] : List (P3 ℚ)).length)) ∧
    (∃ (d : ℚ) (e : ℕ × ℕ) (p : P3 ℚ),
      calculate_midradius ([(⟨1, 0, 0⟩ : P3 ℚ), ⟨0, 1, 0⟩] : List (P3 ℚ))
          ([((0 : ℕ), (1 : ℕ))] : List (ℕ × ℕ)) =
        some (((d : ℚ) : WithTop ℚ), some e, some p) ∧
      e ∈ ([((0 : ℕ), (1 : ℕ))] : List (ℕ × ℕ)) ∧
      edgeDistSq [(⟨1, 0, 0⟩ : P3 ℚ), ⟨0, 1, 0⟩] e = d ∧
      p = edgeClosest [(⟨1, 0, 0⟩ : P3 ℚ), ⟨0, 1, 0⟩] e ∧
      (∀ e' ∈ ([((0 : ℕ), (1 : ℕ))] : List (ℕ × ℕ)),
        d ≤ edgeDistSq [(⟨1, 0, 0⟩ : P3 ℚ), ⟨0, 1, 0⟩] e') ∧
      ∃ k, k < ([((0 : ℕ), (1 : ℕ))] : List (ℕ × ℕ)).length ∧
        ([((0 : ℕ), (1 : ℕ))] : List (ℕ × ℕ)).getD k (0, 0) = e ∧
        ∀ j, j < k →
          d < edgeDistSq [(⟨1, 0, 0⟩ : P3 ℚ), ⟨0, 1, 0⟩]
            (([((0 : ℕ), (1 : ℕ))] : List (ℕ × ℕ)).getD j (0, 0))) :=
  ⟨⟨by simp, by simp⟩,
   calculate_midradius_spec [⟨1, 0, 0⟩, ⟨0, 1, 0⟩] [(0, 1)] (by simp) (by simp)⟩

/-- C6 counterexample: on an empty vertex list and empty edge list the
calculator does not signal any error (in the embedding an error is `none`);
it silently returns `float('inf')` with no edge and no point.  The
MissingGeometry skip happens in the caller's pre-check, not here. -/
theorem calculate_midradius_empty_counterexample :
    calculate_midradius ([] : List (P3 ℚ)) [] = some (⊤, none, none) ∧
    calculate_midradius ([] : List (P3 ℚ)) [] ≠ none := by
  refine ⟨rfl, ?_⟩
  simp [calculate_midradius, midloop]

/-- C6 amended: `calculate_midradius` itself performs no emptiness check: on an
empty edge list it returns `(inf, None, None)` silently, for any vertex list;
the batch caller (`main`) checks `if not vertices or not edges` and skips the
record before ever invoking the calculator. -/
theorem calculate_midradius_empty_amended (vs : List (P3 ℚ)) :
    calculate_midradius vs [] = some (⊤, none, none) := rfl

theorem lexLtb_iff (a b : ℕ × ℕ) : lexLtb a b = true ↔ lexLt a b := by
  simp [lexLtb, lexLt]

theorem lexLt_trans {a b c : ℕ × ℕ} (h1 : lexLt a b) (h2 : lexLt b c) : lexLt a c := by
  rcases h1 with h1 | ⟨h1, h1'⟩ <;> rcases h2 with h2 | ⟨h2, h2'⟩ <;>
    simp [lexLt] <;> omega

theorem lexLt_of_not (a b : ℕ × ℕ) (h1 : lexLtb a b = false) (h2 : a ≠ b) : lexLt b a := by
  have h3 : ¬ lexLt a b := fun h => by
    rw [(lexLtb_iff a b).mpr h] at h1
    exact Bool.noConfusion h1
  have h5 : ¬ (a.1 = b.1 ∧ a.2 = b.2) := by
    intro hc
    exact h2 (Prod.ext hc.1 hc.2)
  simp only [lexLt, not_or, not_and, not_lt] at h3
  simp only [lexLt]
  omega

theorem mem_insertEdge (a e : ℕ × ℕ) :
    ∀ l : List (ℕ × ℕ), (a ∈ insertEdge e l ↔ a = e ∨ a ∈ l) := by
  intro l
  induction l with
  | nil => simp [insertEdge]
  | cons x xs ih =>
    by_cases h1 : lexLtb e x = true
    · simp only [insertEdge, if_pos h1, List.mem_cons]
    · by_cases h2 : e = x
      · simp only [insertEdge, if_neg h1, if_pos h2, List.mem_cons]
        subst h2
        tauto
      · simp only [insertEdge, if_neg h1, if_neg h2, List.mem_cons, ih]
        tauto

theorem pairwise_insertEdge (e : ℕ × ℕ) :
    ∀ l : List (ℕ × ℕ), List.Pairwise lexLt l → List.Pairwise lexLt (insertEdge e l) := by
  intro l
  induction l with
  | nil => intro _; simp [insertEdge]
  | cons x xs ih =>
    intro hp
    rcases List.pairwise_cons.mp hp with ⟨hx, hxs⟩
    by_cases h1 : lexLtb e x = true
    · simp only [insertEdge, if_pos h1]
      refine List.pairwise_cons.mpr ⟨?_, hp⟩
      intro b hb
      rcases List.mem_cons.mp hb with h | h
      · rw [h]
        exact (lexLtb_iff e x).mp h1
      · exact lexLt_trans ((lexLtb_iff e x).mp h1) (hx b h)
    · by_cases h2 : e = x
      · simp only [insertEdge, if_neg h1, if_pos h2]
        exact hp
      · simp only [insertEdge, if_neg h1, if_neg h2]
        refine List.pairwise_cons.mpr ⟨?_, ih hxs⟩
        intro b hb
        rcases (mem_insertEdge b e xs).mp hb with h | h
        · rw [h]
          exact lexLt_of_not e x (Bool.eq_false_iff.mpr h1) h2
        · exact hx b h

theorem mem_foldl_insert (a : ℕ × ℕ) :
    ∀ (l acc : List (ℕ × ℕ)),
      (a ∈ l.foldl (fun acc e => insertEdge e acc) acc ↔ a ∈ l ∨ a ∈ acc) := by
  intro l
  induction l with
  | nil => intro acc; simp
  | cons x xs ih =>
    intro acc
    simp only [List.foldl_cons, ih (insertEdge x acc), mem_insertEdge, List.mem_cons]
    tauto

theorem pairwise_foldl_insert :
    ∀ (l acc : List (ℕ × ℕ)), List.Pairwise lexLt acc →
      List.Pairwise lexLt (l.foldl (fun acc e => insertEdge e acc) acc) := by
  intro l
  induction l with
  | nil => intro acc h; simpa using h
  | cons x xs ih =>
    intro acc h
    rw [List.foldl_cons]
    exact ih _ (pairwise_insertEdge x acc h)

/-- C3: `faces_to_edges` returns exactly the canonical pairs `(min, max)` of
the consecutive index pairs of each face (wrap-around included), with no
duplicates and sorted strictly ascending by `(first, second)` (captured by
pairwise strict lexicographic order), and a face with exactly two indices
contributes exactly one edge. -/
theorem faces_to_edges_spec (faces : List (List ℕ)) :
    (∀ pr : ℕ × ℕ, pr ∈ faces_to_edges faces ↔
      ∃ face, face ∈ faces ∧ ∃ i, i < face.length ∧
        pr = canonPair (face.getD i 0) (face.getD ((i + 1) % face.length) 0)) ∧
    List.Pairwise lexLt (faces_to_edges faces) ∧
    (∀ a b : ℕ, faces_to_edges [[a, b]] = [canonPair a b]) := by
  refine ⟨?_, ?_, ?_⟩
  · intro pr
    rw [faces_to_edges, mem_foldl_insert]
    simp only [edgePairs, List.mem_flatten, List.mem_map, List.mem_range, List.not_mem_nil,
      or_false]
    constructor
    · rintro ⟨l, ⟨face, hf, rfl⟩, hpr⟩
      rcases List.mem_map.mp hpr with ⟨i, hi, hcan⟩
      exact ⟨face, hf, i, List.mem_range.mp hi, hcan.symm⟩
    · rintro ⟨face, hf, i, hi, rfl⟩
      exact ⟨_, ⟨face, hf, rfl⟩,
        List.mem_map.mpr ⟨i, List.mem_range.mpr hi, rfl⟩⟩
  · exact pairwise_foldl_insert _ [] List.Pairwise.nil
  · intro a b
    have hcomm : canonPair b a = canonPair a b := by
      simp [canonPair, Nat.min_comm, Nat.max_comm]
    have h0 : edgePairs [[a, b]] = [canonPair a b, canonPair b a] := by
      simp [edgePairs, List.range_succ]
    rw [faces_to_edges, h0]
    simp only [List.foldl_cons, List.foldl_nil]
    have h1 : insertEdge (canonPair a b) [] = [canonPair a b] := rfl
    rw [h1, hcomm]
    have h2 : lexLtb (canonPair a b) (canonPair a b) = false := by
      simp [lexLtb]
    simp [insertEdge, h2]

/-- C7: on the canonical cube fixture the edge extractor yields exactly 12
edges, and the convert-script midradius calculator returns the squared
distance `1/2 = 0.5² + 0.5²` (i.e. distance `√(0.5² + 0.5²) ≈ 0.7071`),
attained at the midpoint (`t = 1/2`) of the first edge `(0, 1)`. -/
theorem cube_fixture_spec :
    (faces_to_edges cubeFaces).length = 12 ∧
    ObjConvert.calculate_midradius cubeVertices (faces_to_edges cubeFaces) =
      some ((1 / 2 : ℚ) : WithTop ℚ) ∧
    (1 / 2 : ℚ) = (1 / 2 : ℚ) ^ 2 + (1 / 2 : ℚ) ^ 2 ∧
    (closest_point_on_segment (cubeVertices.getD 0 origin3)
        (cubeVertices.getD 1 origin3)).1 =
      pAdd (cubeVertices.getD 0 origin3)
        (pScale (1 / 2) (pSub (cubeVertices.getD 1 origin3)
          (cubeVertices.getD 0 origin3))) := by
  have hedges : faces_to_edges cubeFaces =
      [(0, 1), (0, 3), (0, 4), (1, 2), (1, 5), (2, 3), (2, 6), (3, 7),
       (4, 5), (4, 7), (5, 6), (6, 7)] := by
    decide
  refine ⟨by rw [hedges]; rfl, ?_, by norm_num, ?_⟩
  · rw [hedges, ObjConvert.calculate_midradius]
    norm_num [ObjConvert.midloop, cubeVertices, min_def, max_def, WithTop.coe_lt_top]
  · norm_num [closest_point_on_segment, pAdd, pScale, pSub, cubeVertices, origin3,
      min_def, max_def]

theorem list_sum_map_sub {α : Type} (l : List α) (f : α → ℝ) (a : ℝ) :
    (l.map fun v => f v - a).sum = (l.map f).sum - l.length * a := by
  induction l with
  | nil => simp
  | cons v t ih =>
    simp only [List.map_cons, List.sum_cons, ih, List.length_cons]
    push_cast
    ring

theorem list_sum_map_div (l : List ℝ) (m : ℝ) :
    (l.map fun x => x / m).sum = l.sum / m := by
  induction l with
  | nil => simp
  | cons c t ih => simp [ih, add_div]

theorem length_centered (vs : List (P3 ℝ)) : (centered vs).length = vs.length := by
  simp [centered]

theorem sum_centered_x (vs : List (P3 ℝ)) (h : vs ≠ []) :
    ((centered vs).map P3.x).sum = 0 := by
  have hn : (vs.length : ℝ) ≠ 0 :=
    Nat.cast_ne_zero.mpr fun hc => h (List.eq_nil_of_length_eq_zero hc)
  have h1 : (centered vs).map P3.x = vs.map fun v => v.x - (centroid vs).x := by
    simp [centered, List.map_map, Function.comp]
  rw [h1, list_sum_map_sub vs P3.x ((centroid vs).x)]
  simp only [centroid]
  field_simp

theorem sum_centered_y (vs : List (P3 ℝ)) (h : vs ≠ []) :
    ((centered vs).map P3.y).sum = 0 := by
  have hn : (vs.length : ℝ) ≠ 0 :=
    Nat.cast_ne_zero.mpr fun hc => h (List.eq_nil_of_length_eq_zero hc)
  have h1 : (centered vs).map P3.y = vs.map fun v => v.y - (centroid vs).y := by
    simp [centered, List.map_map, Function.comp]
  rw [h1, list_sum_map_sub vs P3.y ((centroid vs).y)]
  simp only [centroid]
  field_simp

theorem sum_centered_z (vs : List (P3 ℝ)) (h : vs ≠ []) :
    ((centered vs).map P3.z).sum = 0 := by
  have hn : (vs.length : ℝ) ≠ 0 :=
    Nat.cast_ne_zero.mpr fun hc => h (List.eq_nil_of_length_eq_zero hc)
  have h1 : (centered vs).map P3.z = vs.map fun v => v.z - (centroid vs).z := by
    simp [centered, List.map_map, Function.comp]
  rw [h1, list_sum_map_sub vs P3.z ((centroid vs).z)]
  simp only [centroid]
  field_simp

theorem le_foldl_max (l : List ℝ) : ∀ a : ℝ, a ≤ l.foldl max a := by
  induction l with
  | nil => intro a; simp
  | cons c t ih =>
    intro a
    rw [List.foldl_cons]
    exact le_trans (le_max_left a c) (ih (max a c))

theorem mem_le_foldl_max (l : List ℝ) : ∀ (a x : ℝ), x ∈ l → x ≤ l.foldl max a := by
  induction l with
  | nil => intro a x hx; exact absurd hx (List.not_mem_nil x)
  | cons c t ih =>
    intro a x hx
    rw [List.foldl_cons]
    rcases List.mem_cons.mp hx with h | h
    · rw [h]; exact le_trans (le_max_right a c) (le_foldl_max t (max a c))
    · exact ih (max a c) x h

theorem vnorm_nonneg (v : P3 ℝ) : 0 ≤ vnorm v := Real.sqrt_nonneg _

theorem le_maxDist (vs : List (P3 ℝ)) (v : P3 ℝ) (hv : v ∈ vs) :
    vnorm v ≤ maxDist vs := by
  cases vs with
  | nil => exact absurd hv (List.not_mem_nil v)
  | cons w t =>
    rcases List.mem_cons.mp hv with h | h
    · rw [h]; exact le_foldl_max _ _
    · exact mem_le_foldl_max _ _ _ (List.mem_map_of_mem vnorm h)

theorem vnorm_eq_zero_point (v : P3 ℝ) (h : vnorm v ≤ 0) : v = ⟨0, 0, 0⟩ := by
  have h0 : vnorm v = 0 := le_antisymm h (vnorm_nonneg v)
  have h1 : v.x ^ 2 + v.y ^ 2 + v.z ^ 2 ≤ 0 := Real.sqrt_eq_zero'.mp h0
  have hx : v.x = 0 := by nlinarith [sq_nonneg v.x, sq_nonneg v.y, sq_nonneg v.z]
  have hy : v.y = 0 := by nlinarith [sq_nonneg v.x, sq_nonneg v.y, sq_nonneg v.z]
  have hz : v.z = 0 := by nlinarith [sq_nonneg v.x, sq_nonneg v.y, sq_nonneg v.z]
  ext <;> assumption

theorem maxDist_centered_pos (vs : List (P3 ℝ))
    (hd : ∃ u ∈ vs, ∃ w ∈ vs, u ≠ w) : 0 < maxDist (centered vs) := by
  rcases lt_or_le 0 (maxDist (centered vs)) with h | h
  · exact h
  · exfalso
    obtain ⟨u, hu, w, hw, huw⟩ := hd
    have hall : ∀ v ∈ vs, v = centroid vs := by
      intro v hv
      have hmem : (⟨v.x - (centroid vs).x, v.y - (centroid vs).y,
          v.z - (centroid vs).z⟩ : P3 ℝ) ∈ centered vs := by
        simp only [centered]
        exact List.mem_map_of_mem _ hv
      have hz := vnorm_eq_zero_point _ (le_trans (le_maxDist _ _ hmem) h)
      have hx := congrArg P3.x hz
      have hy := congrArg P3.y hz
      have hzz := congrArg P3.z hz
      simp only at hx hy hzz
      ext <;> linarith
    exact huw ((hall u hu).trans (hall w hw).symm)

theorem vnorm_scale (w : P3 ℝ) (m : ℝ) (hm : 0 < m) :
    vnorm ⟨w.x / m, w.y / m, w.z / m⟩ = vnorm w / m := by
  have h1 : ((w.x / m) ^ 2 + (w.y / m) ^ 2 + (w.z / m) ^ 2) =
      (w.x ^ 2 + w.y ^ 2 + w.z ^ 2) / m ^ 2 := by
    field_simp
  simp only [vnorm, h1]
  rw [Real.sqrt_div (by positivity) (m ^ 2), Real.sqrt_sq hm.le]

theorem max_div_pos (p q m : ℝ) (hm : 0 < m) : max (p / m) (q / m) = max p q / m := by
  rcases le_total p q with h | h
  · rw [max_eq_right h, max_eq_right ((div_le_div_iff_of_pos_right hm).mpr h)]
  · rw [max_eq_left h, max_eq_left ((div_le_div_iff_of_pos_right hm).mpr h)]

theorem foldl_max_div (m : ℝ) (hm : 0 < m) :
    ∀ (l : List ℝ) (a : ℝ), (l.map fun x => x / m).foldl max (a / m) = l.foldl max a / m := by
  intro l
  induction l with
  | nil => intro a; rfl
  | cons c t ih =>
    intro a
    simp only [List.map_cons, List.foldl_cons]
    rw [max_div_pos a c m hm, ih (max a c)]

theorem maxDist_map_scale (vs : List (P3 ℝ)) (m : ℝ) (hm : 0 < m) (hne : vs ≠ []) :
    maxDist (vs.map fun w => (⟨w.x / m, w.y / m, w.z / m⟩ : P3 ℝ)) = maxDist vs / m := by
  cases vs with
  | nil => exact absurd rfl hne
  | cons v t =>
    simp only [List.map_cons, maxDist]
    have hcomp : ((t.map fun w => (⟨w.x / m, w.y / m, w.z / m⟩ : P3 ℝ)).map vnorm) =
        (t.map vnorm).map fun x => x / m := by
      simp only [List.map_map]
      exact List.map_congr_left fun w _ => vnorm_scale w m hm
    rw [hcomp, vnorm_scale v m hm, foldl_max_div m hm]

theorem centered_ne_nil (vs : List (P3 ℝ)) (h : vs ≠ []) : centered vs ≠ [] := by
  intro hc
  have := congrArg List.length hc
  rw [length_centered] at this
  exact h (List.eq_nil_of_length_eq_zero this)

theorem normalize_eq_scale (vs : List (P3 ℝ)) (hne : vs ≠ [])
    (hpos : 0 < maxDist (centered vs)) :
    normalize_vertices vs = (centered vs).map fun w =>
      (⟨w.x / maxDist (centered vs), w.y / maxDist (centered vs),
        w.z / maxDist (centered vs)⟩ : P3 ℝ) := by
  cases vs with
  | nil => exact absurd rfl hne
  | cons v t =>
    simp only [normalize_vertices]
    rw [if_pos hpos]

theorem centroid_normalize (vs : List (P3 ℝ)) (hne : vs ≠ [])
    (hd : ∃ u ∈ vs, ∃ w ∈ vs, u ≠ w) :
    centroid (normalize_vertices vs) = ⟨0, 0, 0⟩ := by
  have hpos := maxDist_centered_pos vs hd
  rw [normalize_eq_scale vs hne hpos]
  have hx : (((centered vs).map fun w => (⟨w.x / maxDist (centered vs),
      w.y / maxDist (centered vs), w.z / maxDist (centered vs)⟩ : P3 ℝ)).map P3.x) =
      ((centered vs).map P3.x).map fun r => r / maxDist (centered vs) := by
    simp [List.map_map, Function.comp]
  have hy : (((centered vs).map fun w => (⟨w.x / maxDist (centered vs),
      w.y / maxDist (centered vs), w.z / maxDist (centered vs)⟩ : P3 ℝ)).map P3.y) =
      ((centered vs).map P3.y).map fun r => r / maxDist (centered vs) := by
    simp [List.map_map, Function.comp]
  have hz : (((centered vs).map fun w => (⟨w.x / maxDist (centered vs),
      w.y / maxDist (centered vs), w.z / maxDist (centered vs)⟩ : P3 ℝ)).map P3.z) =
      ((centered vs).map P3.z).map fun r => r / maxDist (centered vs) := by
    simp [List.map_map, Function.comp]
  simp only [centroid, hx, hy, hz, list_sum_map_div,
    sum_centered_x vs hne, sum_centered_y vs hne, sum_centered_z vs hne]
  ext <;> simp

theorem maxDist_normalize (vs : List (P3 ℝ)) (hne : vs ≠ [])
    (hd : ∃ u ∈ vs, ∃ w ∈ vs, u ≠ w) :
    maxDist (normalize_vertices vs) = 1 := by
  have hpos := maxDist_centered_pos vs hd
  rw [normalize_eq_scale vs hne hpos,
    maxDist_map_scale (centered vs) (maxDist (centered vs)) hpos (centered_ne_nil vs hne),
    div_self hpos.ne']

theorem normalize_vertices_idem (vs : List (P3 ℝ)) (hne : vs ≠ [])
    (hd : ∃ u ∈ vs, ∃ w ∈ vs, u ≠ w) :
    normalize_vertices (normalize_vertices vs) = normalize_vertices vs := by
  have hc0 : centroid (normalize_vertices vs) = ⟨0, 0, 0⟩ := centroid_normalize vs hne hd
  have hm1 : maxDist (normalize_vertices vs) = 1 := maxDist_normalize vs hne hd
  have hnvs_ne : normalize_vertices vs ≠ [] := by
    have hpos := maxDist_centered_pos vs hd
    rw [normalize_eq_scale vs hne hpos]
    intro hcon
    exact centered_ne_nil vs hne (List.map_eq_nil_iff.mp hcon)
  have hcen : centered (normalize_vertices vs) = normalize_vertices vs := by
    have h1 : (fun v : P3 ℝ =>
        (⟨v.x - (centroid (normalize_vertices vs)).x,
          v.y - (centroid (normalize_vertices vs)).y,
          v.z - (centroid (normalize_vertices vs)).z⟩ : P3 ℝ)) = fun v => v := by
      funext v
      rw [hc0]
      ext <;> simp
    rw [centered, h1, List.map_id']
  obtain ⟨w, t', hwt⟩ := List.exists_cons_of_ne_nil hnvs_ne
  rw [hwt] at hcen hm1 ⊢
  simp only [normalize_vertices]
  rw [hcen, hm1, if_pos one_pos]
  have h2 : (fun w' : P3 ℝ => (⟨w'.x / 1, w'.y / 1, w'.z / 1⟩ : P3 ℝ)) = fun w' => w' := by
    funext w'
    ext <;> simp
  rw [h2, List.map_id']

theorem normalize_vertices_single (p : P3 ℝ) : normalize_vertices [p] = [⟨0, 0, 0⟩] := by
  have hcent : centroid [p] = p := by
    ext <;> simp [centroid]
  have hcen : centered [p] = [⟨0, 0, 0⟩] := by
    simp [centered, hcent]
  have hmd : maxDist ([(⟨0, 0, 0⟩ : P3 ℝ)]) = 0 := by
    simp [maxDist, vnorm]
  simp only [normalize_vertices]
  rw [hcen, hmd, if_neg (lt_irrefl 0)]

/-- C8: `normalize_vertices` is idempotent after its first application: on a
non-empty, not-all-identical vertex list the normalized list has centroid
exactly zero and maximum origin-distance exactly 1 (exact real arithmetic), so
re-normalizing changes nothing; a single-point list is only recentered (scale
left 1:1), and the empty list maps to the empty list. -/
theorem normalize_vertices_spec :
    (∀ vs : List (P3 ℝ), vs ≠ [] → (∃ u ∈ vs, ∃ w ∈ vs, u ≠ w) →
      centroid (normalize_vertices vs) = ⟨0, 0, 0⟩ ∧
      maxDist (normalize_vertices vs) = 1 ∧
      normalize_vertices (normalize_vertices vs) = normalize_vertices vs) ∧
    (∀ p : P3 ℝ, normalize_vertices [p] = [⟨0, 0, 0⟩]) ∧
    normalize_vertices ([] : List (P3 ℝ)) = [] :=
  ⟨fun vs hne hd => ⟨centroid_normalize vs hne hd, maxDist_normalize vs hne hd,
     normalize_vertices_idem vs hne hd⟩,
   normalize_vertices_single, rfl⟩

/-- Witness for C8 at the two-point list `[(1,0,0), (-1,0,0)]`. -/
theorem normalize_vertices_spec_witness :
    (([(⟨1, 0, 0⟩ : P3 ℝ), ⟨-1, 0, 0⟩] : List (P3 ℝ)) ≠ [] ∧
      ∃ u ∈ ([(⟨1, 0, 0⟩ : P3 ℝ), ⟨-1, 0, 0⟩] : List (P3 ℝ)),
        ∃ w ∈ ([(⟨1, 0, 0⟩ : P3 ℝ), ⟨-1, 0, 0⟩] : List (P3 ℝ)), u ≠ w) ∧
    (centroid (normalize_vertices [(⟨1, 0, 0⟩ : P3 ℝ), ⟨-1, 0, 0⟩]) = ⟨0, 0, 0⟩ ∧
     maxDist (normalize_vertices [(⟨1, 0, 0⟩ : P3 ℝ), ⟨-1, 0, 0⟩]) = 1 ∧
     normalize_vertices (normalize_vertices [(⟨1, 0, 0⟩ : P3 ℝ), ⟨-1, 0, 0⟩]) =
       normalize_vertices [(⟨1, 0, 0⟩ : P3 ℝ), ⟨-1, 0, 0⟩]) := by
  have h1 : ([(⟨1, 0, 0⟩ : P3 ℝ), ⟨-1, 0, 0⟩] : List (P3 ℝ)) ≠ [] := by simp
  have h2 : ∃ u ∈ ([(⟨1, 0, 0⟩ : P3 ℝ), ⟨-1, 0, 0⟩] : List (P3 ℝ)),
      ∃ w ∈ ([(⟨1, 0, 0⟩ : P3 ℝ), ⟨-1, 0, 0⟩] : List (P3 ℝ)), u ≠ w := by
    refine ⟨⟨1, 0, 0⟩, by simp, ⟨-1, 0, 0⟩, by simp, ?_⟩
    intro hc
    have := congrArg P3.x hc
    norm_num at this
  exact ⟨⟨h1, h2⟩, normalize_vertices_spec.1 _ h1 h2⟩

theorem substMid_nil (nr : ℚ) : substMid nr [] = [] := by
  rw [substMid]
  rfl

theorem substMid_match (nr : ℚ) (s : List Char) (n : ℕ) (h : matchMidLen s = some n) :
    substMid nr s = ("MIDRADIUS:".toList) ++ '\n' :: fmt4 nr ++ substMid nr (s.drop n) := by
  rw [substMid]
  split
  · rename_i n' heq
    rw [h] at heq
    cases Option.some.inj heq
    rfl
  · rename_i heq
    rw [h] at heq
    exact Option.noConfusion heq

theorem substMid_cons (nr : ℚ) (c : Char) (rest : List Char)
    (h : matchMidLen (c :: rest) = none) :
    substMid nr (c :: rest) = c :: substMid nr rest := by
  rw [substMid]
  split
  · rename_i n heq
    rw [h] at heq
    exact Option.noConfusion heq
  · rfl

theorem substMid_no_match (nr : ℚ) :
    ∀ s : List Char, hasMid s = false → substMid nr s = s := by
  intro s
  induction s with
  | nil => intro _; exact substMid_nil nr
  | cons c rest ih =>
    intro h
    rw [hasMid] at h
    cases hm : matchMidLen (c :: rest) with
    | some n => rw [hm] at h; simp at h
    | none =>
      rw [hm] at h
      simp only [Option.isSome_none, Bool.false_or] at h
      rw [substMid_cons nr c rest hm, ih h]

theorem takeWhile_all {p : Char → Bool} :
    ∀ l : List Char, (∀ c ∈ l, p c = true) → l.takeWhile p = l := by
  intro l
  induction l with
  | nil => intro _; rfl
  | cons c t ih =>
    intro h
    rw [List.takeWhile_cons, if_pos (h c (List.mem_cons_self c t)),
      ih fun c' hc' => h c' (List.mem_cons_of_mem c hc')]

theorem takeWhile_append_all {p : Char → Bool} :
    ∀ (l r : List Char), (∀ c ∈ l, p c = true) →
      (l ++ r).takeWhile p = l ++ r.takeWhile p := by
  intro l
  induction l with
  | nil => intro r _; rfl
  | cons c t ih =>
    intro r h
    rw [List.cons_append, List.takeWhile_cons, if_pos (h c (List.mem_cons_self c t)),
      ih r fun c' hc' => h c' (List.mem_cons_of_mem c hc'), List.cons_append]

theorem takeWhile_cons_neg {p : Char → Bool} (c : Char) (l : List Char)
    (h : p c = false) : (c :: l).takeWhile p = [] := by
  rw [List.takeWhile_cons, if_neg (by simp [h])]

theorem dropWhile_all_false {p : Char → Bool} :
    ∀ l : List Char, (∀ c ∈ l, p c = false) → l.dropWhile p = l := by
  intro l
  induction l with
  | nil => intro _; rfl
  | cons c t ih =>
    intro h
    rw [List.dropWhile_cons, if_neg (by simp [h c (List.mem_cons_self c t)])]

theorem print_not_space (c : Char) (h1 : 33 ≤ c.toNat) (h2 : c.toNat ≤ 127) :
    isPySpace c = false := by
  rcases hsp : isPySpace c with _ | _
  · rfl
  · exfalso
    simp only [isPySpace, Bool.or_eq_true, Bool.and_eq_true, decide_eq_true_eq,
      beq_iff_eq] at hsp
    omega

theorem digit_not_space (c : Char) (h : c.isDigit = true) : isPySpace c = false := by
  have hb : 48 ≤ c.toNat ∧ c.toNat ≤ 57 := by
    simp only [Char.isDigit, Bool.and_eq_true, decide_eq_true_eq] at h
    exact h
  exact print_not_space c (by omega) (by omega)

theorem isNumNeg_not_space (c : Char) (h : isNumNeg c = true) : isPySpace c = false := by
  rw [isNumNeg, Bool.or_eq_true, Bool.or_eq_true] at h
  rcases h with (h | h) | h
  · exact digit_not_space c h
  · rw [eq_of_beq h]
    decide
  · rw [eq_of_beq h]
    decide

theorem beq_false_of_digit (a c : Char) (h : c.isDigit = true) (ha : a.isDigit = false) :
    (a == c) = false := by
  rcases hbe : a == c with _ | _
  · rfl
  · rw [eq_of_beq hbe, h] at ha
    exact Bool.noConfusion ha

theorem leadsWith_cons_ne (p : Char) (ps : List Char) (c : Char) (cs : List Char)
    (h : (p == c) = false) : leadsWith (p :: ps) (c :: cs) = false := by
  have h1 : leadsWith (p :: ps) (c :: cs) = (p == c && leadsWith ps cs) := rfl
  rw [h1, h]
  rfl

theorem natDigitsGo_length :
    ∀ (fuel n : ℕ) (acc : List Char), acc.length < (natDigitsGo fuel n acc).length := by
  intro fuel
  induction fuel with
  | zero => intro n acc; simp [natDigitsGo]
  | succ f ih =>
    intro n acc
    rw [natDigitsGo]
    split
    · simp
    · exact lt_trans (by simp) (ih (n / 10) (digitChar (n % 10) :: acc))

theorem natDigits_ne_nil (n : ℕ) : natDigits n ≠ [] := by
  intro h
  have h2 : ([] : List Char).length < (natDigits n).length := natDigitsGo_length n n []
  rw [h] at h2
  simp at h2

theorem six_le_fmt4_length (q : ℚ) : 6 ≤ (fmt4 q).length := by
  have hd : ∀ n : ℕ, 6 ≤ (digitsDot n).length := by
    intro n
    have h1 : 1 ≤ (natDigits (n / 10000)).length := by
      rcases hh : natDigits (n / 10000) with _ | ⟨c, t⟩
      · exact absurd hh (natDigits_ne_nil _)
      · simp
    rw [digitsDot]
    simp only [List.length_append, List.length_cons, pad4]
    simp
    omega
  rw [fmt4]
  split
  · simp only [List.length_cons]
    have := hd (rnd4 (-q * 10000))
    omega
  · exact hd _

/-- C10 (amended): on ASCII content (the record files are ASCII; the
restriction is needed because Python's `\d` also matches non-ASCII Unicode
decimal digits, which the model's ASCII digit class omits), when the update
regex `(MIDRADIUS:\s*\n)([\d.]+)` matches nowhere in the content — i.e. no
`MIDRADIUS:` header is followed (after whitespace ending in a newline) by at
least one digit-or-dot character — `update_midradius_in_file` raises no error
and rewrites the file with content identical to what it read: a silent
no-op. -/
theorem update_midradius_no_match (nr : ℚ) (content : List Char)
    (_hascii : ∀ c ∈ content, c.toNat < 128)
    (h : hasMid content = false) :
    update_midradius_in_file nr content = content := by
  rw [update_midradius_in_file]
  exact substMid_no_match nr content h

/-- Witness for C10 on a record without a MIDRADIUS section. -/
theorem update_midradius_no_match_witness :
    (∀ c ∈ ("VERTICES:\n0:0.5,0.5,0.5".toList), c.toNat < 128) ∧
    hasMid ("VERTICES:\n0:0.5,0.5,0.5".toList) = false ∧
    update_midradius_in_file (1 / 2) ("VERTICES:\n0:0.5,0.5,0.5".toList) =
      "VERTICES:\n0:0.5,0.5,0.5".toList :=
  ⟨by decide, by decide, update_midradius_no_match (1 / 2) _ (by decide) (by decide)⟩

/-- C10 counterexample: the content `"MIDRADIUS:\n0abc"` contains no line made
of digits and dots (its lines are `MIDRADIUS:` and `0abc`), yet the update is
not a no-op: the regex needs only a digit-or-dot prefix after the header's
newline, so the `0` is replaced and the rewritten content differs. -/
theorem update_midradius_counterexample :
    (∀ l ∈ splitOnC '\n' ("MIDRADIUS:\n0abc".toList),
      ¬(l ≠ [] ∧ l.all isNum = true)) ∧
    update_midradius_in_file (1 / 2) ("MIDRADIUS:\n0abc".toList) ≠
      "MIDRADIUS:\n0abc".toList := by
  refine ⟨by decide, ?_⟩
  have hm : matchMidLen ("MIDRADIUS:\n0abc".toList) = some 12 := by decide
  have hdrop : ("MIDRADIUS:\n0abc".toList).drop 12 = "abc".toList := by decide
  have habc : hasMid ("abc".toList) = false := by decide
  rw [update_midradius_in_file, substMid_match (1 / 2) _ 12 hm, hdrop,
    substMid_no_match (1 / 2) _ habc]
  intro hcon
  have hlen := congrArg List.length hcon
  have h6 := six_le_fmt4_length (1 / 2)
  simp only [List.length_append, List.length_cons] at hlen
  have h10 : ("MIDRADIUS:".toList).length = 10 := by decide
  have h15 : ("MIDRADIUS:\n0abc".toList).length = 15 := by decide
  have h3 : ("abc".toList).length = 3 := by decide
  rw [h10, h3, h15] at hlen
  omega

theorem charVal_digitChar (m : ℕ) (h : m < 10) : charVal (digitChar m) = m := by
  interval_cases m <;> decide

theorem digitChar_isDigit (m : ℕ) (h : m < 10) : (digitChar m).isDigit = true := by
  interval_cases m <;> decide

theorem natDigitsGo_spec :
    ∀ fuel n : ℕ, n ≤ fuel → ∀ acc : List Char,
      ∃ pre : List Char, natDigitsGo fuel n acc = pre ++ acc ∧ pre ≠ [] ∧
        (∀ c ∈ pre, c.isDigit = true) ∧
        ∀ a : ℕ, pre.foldl (fun a c => 10 * a + charVal c) a = a * 10 ^ pre.length + n := by
  intro fuel
  induction fuel with
  | zero =>
    intro n hn acc
    have hn0 : n = 0 := Nat.le_zero.mp hn
    subst hn0
    refine ⟨[digitChar 0], rfl, by simp, ?_, ?_⟩
    · intro c hc
      rw [List.mem_singleton.mp hc]
      exact digitChar_isDigit 0 (by norm_num)
    · intro a
      simp [List.foldl, charVal_digitChar 0 (by norm_num)]
      omega
  | succ f ih =>
    intro n hn acc
    rw [natDigitsGo]
    by_cases h10 : n < 10
    · rw [if_pos h10]
      refine ⟨[digitChar n], rfl, by simp, ?_, ?_⟩
      · intro c hc
        rw [List.mem_singleton.mp hc]
        exact digitChar_isDigit n h10
      · intro a
        simp [List.foldl, charVal_digitChar n h10]
        omega
    · rw [if_neg h10]
      have hle : n / 10 ≤ f := by omega
      obtain ⟨pre', heq, hne, hdig, hval⟩ := ih (n / 10) hle (digitChar (n % 10) :: acc)
      refine ⟨pre' ++ [digitChar (n % 10)], ?_, by simp, ?_, ?_⟩
      · rw [heq, List.append_assoc, List.singleton_append]
      · intro c hc
        rcases List.mem_append.mp hc with h | h
        · exact hdig c h
        · rw [List.mem_singleton.mp h]
          exact digitChar_isDigit _ (Nat.mod_lt n (by norm_num))
      · intro a
        rw [List.foldl_append, hval a]
        simp only [List.foldl, charVal_digitChar (n % 10) (Nat.mod_lt n (by norm_num)),
          List.length_append, List.length_singleton]
        rw [pow_succ]
        have hdm := Nat.div_add_mod n 10
        set K := 10 ^ pre'.length with hK
        nlinarith [hdm]

theorem natOfDigits_natDigits (n : ℕ) : natOfDigits (natDigits n) = n := by
  obtain ⟨pre, heq, hne, hdig, hval⟩ := natDigitsGo_spec n n le_rfl []
  rw [natDigits, heq, List.append_nil, natOfDigits]
  have h0 := hval 0
  simpa using h0

theorem natDigits_digits (n : ℕ) : ∀ c ∈ natDigits n, c.isDigit = true := by
  obtain ⟨pre, heq, hne, hdig, hval⟩ := natDigitsGo_spec n n le_rfl []
  rw [natDigits, heq, List.append_nil]
  exact hdig

theorem pad4_digits (m : ℕ) : ∀ c ∈ pad4 m, c.isDigit = true := by
  intro c hc
  simp only [pad4, List.mem_cons, List.not_mem_nil, or_false] at hc
  rcases hc with h | h | h | h <;> rw [h] <;>
    exact digitChar_isDigit _ (Nat.mod_lt _ (by norm_num))

theorem natOfDigits_pad4 (m : ℕ) (h : m < 10000) : natOfDigits (pad4 m) = m := by
  have h1 := charVal_digitChar (m / 1000 % 10) (Nat.mod_lt _ (by norm_num))
  have h2 := charVal_digitChar (m / 100 % 10) (Nat.mod_lt _ (by norm_num))
  have h3 := charVal_digitChar (m / 10 % 10) (Nat.mod_lt _ (by norm_num))
  have h4 := charVal_digitChar (m % 10) (Nat.mod_lt _ (by norm_num))
  simp only [natOfDigits, pad4, List.foldl, h1, h2, h3, h4]
  omega

theorem digit_beq_false (c a : Char) (h : c.isDigit = true) (ha : a.isDigit = false) :
    (c == a) = false := by
  rcases hbe : c == a with _ | _
  · rfl
  · rw [eq_of_beq hbe, ha] at h
    exact Bool.noConfusion h

theorem ne_of_numneg (c a : Char) (h : isNumNeg c = true) (ha : isNumNeg a = false) :
    c ≠ a := by
  intro he
  rw [he, ha] at h
  exact Bool.noConfusion h

theorem ne_of_num (c a : Char) (h : isNum c = true) (ha : isNum a = false) : c ≠ a := by
  intro he
  rw [he, ha] at h
  exact Bool.noConfusion h

theorem isNum_of_digit (c : Char) (h : c.isDigit = true) : isNum c = true := by
  rw [isNum, h]
  rfl

theorem isNumNeg_of_num (c : Char) (h : isNum c = true) : isNumNeg c = true := by
  rw [isNum] at h
  rw [isNumNeg]
  rcases hd : c.isDigit with _ | _ <;> rcases hdot : (c == '.') with _ | _ <;> simp_all

theorem dropWhile_append_all {p : Char → Bool} :
    ∀ (l r : List Char), (∀ c ∈ l, p c = true) →
      (l ++ r).dropWhile p = r.dropWhile p := by
  intro l
  induction l with
  | nil => intro r _; rfl
  | cons c t ih =>
    intro r h
    rw [List.cons_append, List.dropWhile_cons, if_pos (h c (List.mem_cons_self c t)),
      ih r fun c' hc' => h c' (List.mem_cons_of_mem c hc')]

theorem dropWhile_cons_neg {p : Char → Bool} (c : Char) (l : List Char)
    (h : p c = false) : (c :: l).dropWhile p = c :: l := by
  rw [List.dropWhile_cons, if_neg (by simp [h])]

theorem splitOnC_no_sep (sep : Char) :
    ∀ l : List Char, (∀ c ∈ l, c ≠ sep) → splitOnC sep l = [l] := by
  intro l
  induction l with
  | nil => intro _; rfl
  | cons c t ih =>
    intro h
    rw [splitOnC, if_neg (h c (List.mem_cons_self c t)),
      ih fun c' hc' => h c' (List.mem_cons_of_mem c hc')]

theorem splitOnC_append (sep : Char) :
    ∀ l r : List Char, (∀ c ∈ l, c ≠ sep) →
      splitOnC sep (l ++ sep :: r) = l :: splitOnC sep r := by
  intro l
  induction l with
  | nil =>
    intro r _
    rw [List.nil_append, splitOnC, if_pos rfl]
  | cons c t ih =>
    intro r h
    rw [List.cons_append, splitOnC, if_neg (h c (List.mem_cons_self c t)),
      ih r fun c' hc' => h c' (List.mem_cons_of_mem c hc')]

theorem splitOnC_join (sep : Char) :
    ∀ ls : List (List Char), ls ≠ [] → (∀ l ∈ ls, ∀ c ∈ l, c ≠ sep) →
      splitOnC sep (joinSep sep ls) = ls := by
  intro ls
  induction ls with
  | nil => intro h _; exact absurd rfl h
  | cons l ls' ih =>
    intro _ h
    cases ls' with
    | nil => exact splitOnC_no_sep sep l (h l (List.mem_cons_self l []))
    | cons m ls'' =>
      have hj : joinSep sep (l :: m :: ls'') = l ++ sep :: joinSep sep (m :: ls'') := rfl
      rw [hj, splitOnC_append sep l _ (h l (List.mem_cons_self l _)),
        ih (by simp) fun l' hl' => h l' (List.mem_cons_of_mem l hl')]

theorem digitsDot_num (n : ℕ) : ∀ c ∈ digitsDot n, isNum c = true := by
  intro c hc
  rw [digitsDot] at hc
  rcases List.mem_append.mp hc with h | h
  · exact isNum_of_digit c (natDigits_digits _ c h)
  · rcases List.mem_cons.mp h with h1 | h1
    · rw [h1]; rfl
    · exact isNum_of_digit c (pad4_digits _ c h1)

theorem pad4_length (m : ℕ) : (pad4 m).length = 4 := rfl

theorem digitsDot_ne_nil (n : ℕ) : digitsDot n ≠ [] := by
  rw [digitsDot]
  intro h
  exact natDigits_ne_nil _ (List.append_eq_nil.mp h).1

theorem count_dot_digitsDot (n : ℕ) : (digitsDot n).count '.' = 1 := by
  rw [digitsDot, List.count_append]
  have h1 : (natDigits (n / 10000)).count '.' = 0 := by
    rw [List.count_eq_zero]
    intro hmem
    have := natDigits_digits (n / 10000) '.' hmem
    exact Bool.noConfusion this
  have h2 : (pad4 (n % 10000)).count '.' = 0 := by
    rw [List.count_eq_zero]
    intro hmem
    have := pad4_digits (n % 10000) '.' hmem
    exact Bool.noConfusion this
  rw [h1, List.count_cons_self, h2]

theorem any_digit_digitsDot (n : ℕ) : (digitsDot n).any Char.isDigit = true := by
  rw [List.any_eq_true]
  obtain ⟨d, t, hdt⟩ := List.exists_cons_of_ne_nil (natDigits_ne_nil (n / 10000))
  refine ⟨d, ?_, ?_⟩
  · rw [digitsDot, hdt]
    exact List.mem_append_left _ (List.mem_cons_self d t)
  · exact natDigits_digits _ d (by rw [hdt]; exact List.mem_cons_self d t)

theorem ratOfDigits_digitsDot (n : ℕ) : ratOfDigits (digitsDot n) = (n : ℚ) / 10000 := by
  have htw : (digitsDot n).takeWhile (fun c => !(c == '.')) = natDigits (n / 10000) := by
    rw [digitsDot, takeWhile_append_all _ _ (fun c hc => by
      rw [digit_beq_false c '.' (natDigits_digits _ c hc) (by decide)]; rfl),
      takeWhile_cons_neg _ _ (by decide), List.append_nil]
  have hdw : (digitsDot n).dropWhile (fun c => !(c == '.')) = '.' :: pad4 (n % 10000) := by
    rw [digitsDot, dropWhile_append_all _ _ (fun c hc => by
      rw [digit_beq_false c '.' (natDigits_digits _ c hc) (by decide)]; rfl),
      dropWhile_cons_neg _ _ (by decide)]
  simp only [ratOfDigits, htw, hdw, List.drop_succ_cons, List.drop_zero,
    natOfDigits_natDigits, natOfDigits_pad4 (n % 10000) (Nat.mod_lt n (by norm_num)),
    pad4_length]
  have hdm := congrArg (Nat.cast : ℕ → ℚ) (Nat.div_add_mod n 10000)
  push_cast at hdm
  have h4 : (10 : ℚ) ^ 4 = 10000 := by norm_num
  rw [h4]
  field_simp
  linarith

theorem pyCore_digitsDot (n : ℕ) : pyCore (digitsDot n) = some ((n : ℚ) / 10000) := by
  rw [pyCore, if_pos ⟨digitsDot_ne_nil n, by
      rw [List.all_eq_true]; exact digitsDot_num n,
    by rw [count_dot_digitsDot], any_digit_digitsDot n⟩, ratOfDigits_digitsDot]

theorem head_digitsDot (n : ℕ) :
    ∃ d t, digitsDot n = d :: t ∧ d.isDigit = true := by
  obtain ⟨d, t, hdt⟩ := List.exists_cons_of_ne_nil (natDigits_ne_nil (n / 10000))
  refine ⟨d, t ++ '.' :: pad4 (n % 10000), ?_, ?_⟩
  · rw [digitsDot, hdt, List.cons_append]
  · exact natDigits_digits _ d (by rw [hdt]; exact List.mem_cons_self d t)

theorem pythonFloat_fmt4 (q : ℚ) : pythonFloat? (fmt4 q) = some (round4 q) := by
  by_cases hq : q < 0
  · rw [fmt4, if_pos hq, round4, if_pos hq, pythonFloat?]
    rw [if_pos (by rw [List.head?_cons])]
    simp only [List.drop_succ_cons, List.drop_zero, pyCore_digitsDot]
    rfl
  · rw [fmt4, if_neg hq, round4, if_neg hq, pythonFloat?]
    obtain ⟨d, t, hdt, hd⟩ := head_digitsDot (rnd4 (q * 10000))
    rw [if_neg (by
      rw [hdt, List.head?_cons]
      intro hcon
      have hde : d = '-' := Option.some.inj hcon
      rw [hde] at hd
      exact Bool.noConfusion hd)]
    exact pyCore_digitsDot _

theorem fmt4_numneg (q : ℚ) : ∀ c ∈ fmt4 q, isNumNeg c = true := by
  intro c hc
  rw [fmt4] at hc
  split at hc
  · rcases List.mem_cons.mp hc with h | h
    · rw [h]; rfl
    · exact isNumNeg_of_num c (digitsDot_num _ c h)
  · exact isNumNeg_of_num c (digitsDot_num _ c hc)

theorem fmt4_ne_nil (q : ℚ) : fmt4 q ≠ [] := by
  rw [fmt4]
  split
  · exact List.cons_ne_nil _ _
  · exact digitsDot_ne_nil _

theorem vertexLine_no_space (i : ℕ) (v : P3 ℚ) :
    ∀ c ∈ vertexLine i v, isPySpace c = false := by
  intro c hc
  simp only [vertexLine, List.mem_append, List.mem_cons] at hc
  rcases hc with h | h | h
  · exact digit_not_space c (natDigits_digits i c h)
  · rw [h]; rfl
  · rcases h with h | h | h
    · exact isNumNeg_not_space c (fmt4_numneg v.x c h)
    · rw [h]; rfl
    · rcases h with h | h | h
      · exact isNumNeg_not_space c (fmt4_numneg v.y c h)
      · rw [h]; rfl
      · exact isNumNeg_not_space c (fmt4_numneg v.z c h)

theorem edgeLine_no_space (i : ℕ) (e : ℕ × ℕ) :
    ∀ c ∈ edgeLine i e, isPySpace c = false := by
  intro c hc
  simp only [edgeLine, List.mem_append, List.mem_cons] at hc
  rcases hc with h | h | h
  · exact digit_not_space c (natDigits_digits i c h)
  · rw [h]; rfl
  · rcases h with h | h | h
    · exact digit_not_space c (natDigits_digits e.1 c h)
    · rw [h]; rfl
    · exact digit_not_space c (natDigits_digits e.2 c h)

theorem fmt4_no_space (q : ℚ) : ∀ c ∈ fmt4 q, isPySpace c = false :=
  fun c hc => isNumNeg_not_space c (fmt4_numneg q c hc)

theorem stripChars_eq_self (l : List Char) (h : ∀ c ∈ l, isPySpace c = false) :
    stripChars l = l := by
  rw [stripChars, dropWhile_all_false l h,
    dropWhile_all_false _ (fun c hc => h c (List.mem_reverse.mp hc)),
    List.reverse_reverse]

theorem headers_false_of_digit (d : Char) (t : List Char) (hd : d.isDigit = true) :
    leadsWith ("VERTICES:".toList) (d :: t) = false ∧
    leadsWith ("EDGES:".toList) (d :: t) = false ∧
    leadsWith ("MIDRADIUS:".toList) (d :: t) = false :=
  ⟨leadsWith_cons_ne 'V' _ d t (beq_false_of_digit 'V' d hd (by decide)),
   leadsWith_cons_ne 'E' _ d t (beq_false_of_digit 'E' d hd (by decide)),
   leadsWith_cons_ne 'M' _ d t (beq_false_of_digit 'M' d hd (by decide))⟩

theorem matchVertexLine_vertexLine (i : ℕ) (v : P3 ℚ) :
    matchVertexLine (vertexLine i v) = some (fmt4 v.x, fmt4 v.y, fmt4 v.z) := by
  have htw : (vertexLine i v).takeWhile Char.isDigit = natDigits i := by
    rw [vertexLine, takeWhile_append_all _ _ (natDigits_digits i),
      takeWhile_cons_neg ':' _ (by decide), List.append_nil]
  have hdrop : (vertexLine i v).drop (natDigits i).length =
      ':' :: (fmt4 v.x ++ ',' :: (fmt4 v.y ++ ',' :: fmt4 v.z)) := by
    rw [vertexLine, List.drop_left]
  have hsplit : splitOnC ',' (fmt4 v.x ++ ',' :: (fmt4 v.y ++ ',' :: fmt4 v.z)) =
      [fmt4 v.x, fmt4 v.y, fmt4 v.z] := by
    rw [splitOnC_append ',' _ _
        (fun c hc => ne_of_numneg c ',' (fmt4_numneg v.x c hc) (by decide)),
      splitOnC_append ',' _ _
        (fun c hc => ne_of_numneg c ',' (fmt4_numneg v.y c hc) (by decide)),
      splitOnC_no_sep ',' _
        (fun c hc => ne_of_numneg c ',' (fmt4_numneg v.z c hc) (by decide))]
  have he1 : (fmt4 v.x).isEmpty = false := by
    rw [List.isEmpty_eq_false_iff_exists_mem]
    obtain ⟨c, t, hct⟩ := List.exists_cons_of_ne_nil (fmt4_ne_nil v.x)
    exact ⟨c, by rw [hct]; exact List.mem_cons_self c t⟩
  have he2 : (fmt4 v.y).isEmpty = false := by
    rw [List.isEmpty_eq_false_iff_exists_mem]
    obtain ⟨c, t, hct⟩ := List.exists_cons_of_ne_nil (fmt4_ne_nil v.y)
    exact ⟨c, by rw [hct]; exact List.mem_cons_self c t⟩
  have he3 : (fmt4 v.z).isEmpty = false := by
    rw [List.isEmpty_eq_false_iff_exists_mem]
    obtain ⟨c, t, hct⟩ := List.exists_cons_of_ne_nil (fmt4_ne_nil v.z)
    exact ⟨c, by rw [hct]; exact List.mem_cons_self c t⟩
  have ha1 : (fmt4 v.x).all isNumNeg = true := List.all_eq_true.mpr (fmt4_numneg v.x)
  have ha2 : (fmt4 v.y).all isNumNeg = true := List.all_eq_true.mpr (fmt4_numneg v.y)
  have ha3 : (fmt4 v.z).all isNumNeg = true := List.all_eq_true.mpr (fmt4_numneg v.z)
  simp only [matchVertexLine, htw, hdrop, hsplit]
  rw [if_neg (natDigits_ne_nil i)]
  rw [if_pos (by rw [he1, he2, he3, ha1, ha2, ha3]; rfl)]

theorem matchEdgeLine_edgeLine (i : ℕ) (e : ℕ × ℕ) :
    matchEdgeLine (edgeLine i e) = some (e.1, e.2) := by
  have htw : (edgeLine i e).takeWhile Char.isDigit = natDigits i := by
    rw [edgeLine, takeWhile_append_all _ _ (natDigits_digits i),
      takeWhile_cons_neg ':' _ (by decide), List.append_nil]
  have hdrop : (edgeLine i e).drop (natDigits i).length =
      ':' :: (natDigits e.1 ++ ',' :: natDigits e.2) := by
    rw [edgeLine, List.drop_left]
  have hsplit : splitOnC ',' (natDigits e.1 ++ ',' :: natDigits e.2) =
      [natDigits e.1, natDigits e.2] := by
    rw [splitOnC_append ',' _ _ (fun c hc =>
        ne_of_num c ',' (isNum_of_digit c (natDigits_digits e.1 c hc)) (by decide)),
      splitOnC_no_sep ',' _ (fun c hc =>
        ne_of_num c ',' (isNum_of_digit c (natDigits_digits e.2 c hc)) (by decide))]
  have he1 : (natDigits e.1).isEmpty = false := by
    rw [List.isEmpty_eq_false_iff_exists_mem]
    obtain ⟨c, t, hct⟩ := List.exists_cons_of_ne_nil (natDigits_ne_nil e.1)
    exact ⟨c, by rw [hct]; exact List.mem_cons_self c t⟩
  have he2 : (natDigits e.2).isEmpty = false := by
    rw [List.isEmpty_eq_false_iff_exists_mem]
    obtain ⟨c, t, hct⟩ := List.exists_cons_of_ne_nil (natDigits_ne_nil e.2)
    exact ⟨c, by rw [hct]; exact List.mem_cons_self c t⟩
  have ha1 : (natDigits e.1).all Char.isDigit = true :=
    List.all_eq_true.mpr (natDigits_digits e.1)
  have ha2 : (natDigits e.2).all Char.isDigit = true :=
    List.all_eq_true.mpr (natDigits_digits e.2)
  simp only [matchEdgeLine, htw, hdrop, hsplit]
  rw [if_neg (natDigits_ne_nil i)]
  rw [if_pos (by rw [he1, he2, ha1, ha2]; rfl)]
  rw [natOfDigits_natDigits, natOfDigits_natDigits]

theorem parseLine_vertexLine (st : ParseSt) (i : ℕ) (v : P3 ℚ)
    (hs : st.sec = Sect.vertSec) :
    parseLine st (vertexLine i v) =
      some { st with vertices := st.vertices ++ [roundP3 v] } := by
  obtain ⟨d, t, hdt⟩ := List.exists_cons_of_ne_nil (natDigits_ne_nil i)
  have hdd : d.isDigit = true :=
    natDigits_digits i d (by rw [hdt]; exact List.mem_cons_self d t)
  have hline : vertexLine i v =
      d :: (t ++ ':' :: (fmt4 v.x ++ ',' :: (fmt4 v.y ++ ',' :: fmt4 v.z))) := by
    rw [vertexLine, hdt, List.cons_append]
  obtain ⟨hV, hE, hM⟩ := headers_false_of_digit d _ hdd
  have hV' : leadsWith ("VERTICES:".toList) (vertexLine i v) = false := by rw [hline]; exact hV
  have hE' : leadsWith ("EDGES:".toList) (vertexLine i v) = false := by rw [hline]; exact hE
  have hM' : leadsWith ("MIDRADIUS:".toList) (vertexLine i v) = false := by rw [hline]; exact hM
  have hie : (vertexLine i v).isEmpty = false := by rw [hline]; rfl
  have hstrip : stripChars (vertexLine i v) = vertexLine i v :=
    stripChars_eq_self _ (vertexLine_no_space i v)
  simp only [parseLine, hstrip, hV', hE', hM', hie, hs, matchVertexLine_vertexLine,
    pythonFloat_fmt4, Bool.false_eq_true, if_false]
  rfl

theorem parseLine_edgeLine (st : ParseSt) (i : ℕ) (e : ℕ × ℕ)
    (hs : st.sec = Sect.edgeSec) :
    parseLine st (edgeLine i e) = some { st with edges := st.edges ++ [e] } := by
  obtain ⟨d, t, hdt⟩ := List.exists_cons_of_ne_nil (natDigits_ne_nil i)
  have hdd : d.isDigit = true :=
    natDigits_digits i d (by rw [hdt]; exact List.mem_cons_self d t)
  have hline : edgeLine i e =
      d :: (t ++ ':' :: (natDigits e.1 ++ ',' :: natDigits e.2)) := by
    rw [edgeLine, hdt, List.cons_append]
  obtain ⟨hV, hE, hM⟩ := headers_false_of_digit d _ hdd
  have hV' : leadsWith ("VERTICES:".toList) (edgeLine i e) = false := by rw [hline]; exact hV
  have hE' : leadsWith ("EDGES:".toList) (edgeLine i e) = false := by rw [hline]; exact hE
  have hM' : leadsWith ("MIDRADIUS:".toList) (edgeLine i e) = false := by rw [hline]; exact hM
  have hie : (edgeLine i e).isEmpty = false := by rw [hline]; rfl
  have hstrip : stripChars (edgeLine i e) = edgeLine i e :=
    stripChars_eq_self _ (edgeLine_no_space i e)
  simp only [parseLine, hstrip, hV', hE', hM', hie, hs, matchEdgeLine_edgeLine,
    Bool.false_eq_true, if_false]

theorem parseLine_fmt4 (st : ParseSt) (mr : ℚ) (hs : st.sec = Sect.midSec)
    (hmr : 0 ≤ mr) :
    parseLine st (fmt4 mr) = some { st with midradius := some (round4 mr) } := by
  have hfd : fmt4 mr = digitsDot (rnd4 (mr * 10000)) := by
    rw [fmt4, if_neg (not_lt.mpr hmr)]
  obtain ⟨d, t, hdt, hdd⟩ := head_digitsDot (rnd4 (mr * 10000))
  have hline : fmt4 mr = d :: t := by rw [hfd, hdt]
  obtain ⟨hV, hE, hM⟩ := headers_false_of_digit d t hdd
  have hV' : leadsWith ("VERTICES:".toList) (fmt4 mr) = false := by rw [hline]; exact hV
  have hE' : leadsWith ("EDGES:".toList) (fmt4 mr) = false := by rw [hline]; exact hE
  have hM' : leadsWith ("MIDRADIUS:".toList) (fmt4 mr) = false := by rw [hline]; exact hM
  have hie : (fmt4 mr).isEmpty = false := by rw [hline]; rfl
  have hstrip : stripChars (fmt4 mr) = fmt4 mr :=
    stripChars_eq_self _ (fmt4_no_space mr)
  have hall : (fmt4 mr).all isNum = true := by
    rw [hfd, List.all_eq_true]
    exact digitsDot_num _
  simp only [parseLine, hstrip, hV', hE', hM', hie, hs, hall, pythonFloat_fmt4,
    Bool.false_eq_true, if_false, Bool.not_false, Bool.and_true, Bool.true_and, if_true]

theorem parseLine_hdrV (st : ParseSt) :
    parseLine st ("VERTICES:".toList) = some { st with sec := Sect.vertSec } := rfl

theorem parseLine_hdrE (st : ParseSt) :
    parseLine st ("EDGES:".toList) = some { st with sec := Sect.edgeSec } := rfl

theorem parseLine_hdrM (st : ParseSt) :
    parseLine st ("MIDRADIUS:".toList) = some { st with sec := Sect.midSec } := rfl

theorem parseLine_blank (st : ParseSt) : parseLine st [] = some st := rfl

theorem foldlM_vertexLines (vs : List (P3 ℚ)) :
    ∀ (i : ℕ) (st : ParseSt), st.sec = Sect.vertSec →
      (vertexLines i vs).foldlM parseLine st =
        some { st with vertices := st.vertices ++ vs.map roundP3 } := by
  induction vs with
  | nil =>
    intro i st hs
    simp [vertexLines]
  | cons v t ih =>
    intro i st hs
    rw [vertexLines, List.foldlM_cons, parseLine_vertexLine st i v hs,
      Option.bind_eq_bind, Option.some_bind,
      ih (i + 1) { st with vertices := st.vertices ++ [roundP3 v] } hs]
    simp [List.append_assoc]

theorem foldlM_edgeLines (es : List (ℕ × ℕ)) :
    ∀ (i : ℕ) (st : ParseSt), st.sec = Sect.edgeSec →
      (edgeLines i es).foldlM parseLine st =
        some { st with edges := st.edges ++ es } := by
  induction es with
  | nil =>
    intro i st hs
    simp [edgeLines]
  | cons e t ih =>
    intro i st hs
    rw [edgeLines, List.foldlM_cons, parseLine_edgeLine st i e hs,
      Option.bind_eq_bind, Option.some_bind,
      ih (i + 1) { st with edges := st.edges ++ [e] } hs]
    simp [List.append_assoc]

theorem not_space_ne_nl (c : Char) (h : isPySpace c = false) : c ≠ '\n' := by
  intro hc
  rw [hc] at h
  exact Bool.noConfusion h

theorem vertexLines_no_nl :
    ∀ (vs : List (P3 ℚ)) (i : ℕ), ∀ l ∈ vertexLines i vs, ∀ c ∈ l, c ≠ '\n' := by
  intro vs
  induction vs with
  | nil => intro i l hl; exact absurd hl (List.not_mem_nil l)
  | cons v t ih =>
    intro i l hl
    rcases List.mem_cons.mp hl with h | h
    · intro c hc
      rw [h] at hc
      exact not_space_ne_nl c (vertexLine_no_space i v c hc)
    · exact ih (i + 1) l h

theorem edgeLines_no_nl :
    ∀ (es : List (ℕ × ℕ)) (i : ℕ), ∀ l ∈ edgeLines i es, ∀ c ∈ l, c ≠ '\n' := by
  intro es
  induction es with
  | nil => intro i l hl; exact absurd hl (List.not_mem_nil l)
  | cons e t ih =>
    intro i l hl
    rcases List.mem_cons.mp hl with h | h
    · intro c hc
      rw [h] at hc
      exact not_space_ne_nl c (edgeLine_no_space i e c hc)
    · exact ih (i + 1) l h

/-- C4: encoding a record with `convert_to_format` and decoding the resulting
text with `parse_polyhedron_file` raises no error and reproduces the vertex
coordinates rounded to 4 decimal digits, the exact edge list, and the
midradius rounded to 4 decimal digits (the midradius must be nonnegative: the
decoder's `[\d.]+` pattern has no sign, which is why the source only ever
stores nonnegative midradius values). -/
theorem format_roundtrip (vs : List (P3 ℚ)) (es : List (ℕ × ℕ)) (mr : ℚ)
    (hmr : 0 ≤ mr) :
    parse_polyhedron_file (convert_to_format vs es mr) =
      some (vs.map roundP3, es, some (round4 mr)) := by
  rw [parse_polyhedron_file, convert_to_format]
  simp only [List.cons_append, List.singleton_append, List.append_assoc]
  rw [splitOnC_join '\n' _ (List.cons_ne_nil _ _) ?side]
  case side =>
    intro l hl
    simp only [List.mem_cons, List.mem_append, List.not_mem_nil, or_false, false_or] at hl
    rcases hl with h | h | h | h | h | h | h | h
    all_goals first
      | (subst h; decide)
      | (exact vertexLines_no_nl vs 0 l h)
      | (exact edgeLines_no_nl es 0 l h)
      | (exact absurd h (List.not_mem_nil l))
      | (intro c hc; rw [h] at hc; exact not_space_ne_nl c (fmt4_no_space mr c hc))
  have hpf : ∀ st : ParseSt, st.sec = Sect.midSec →
      parseLine st (fmt4 mr) = some { st with midradius := some (round4 mr) } :=
    fun st hs => parseLine_fmt4 st mr hs hmr
  simp only [List.foldlM_cons, List.foldlM_append, List.foldlM_nil, List.nil_append,
    parseLine_hdrV, parseLine_hdrE, parseLine_hdrM, parseLine_blank, Option.pure_def,
    Option.bind_eq_bind, Option.some_bind, foldlM_vertexLines, foldlM_edgeLines, hpf]
  simp

/-- Witness for C4 on a one-vertex, one-edge record with midradius `1/2`. -/
theorem format_roundtrip_witness :
    (0 : ℚ) ≤ 1 / 2 ∧
    parse_polyhedron_file
        (convert_to_format [⟨1 / 2, -(1 / 2), 0⟩] [(0, 1)] (1 / 2)) =
      some (([(⟨1 / 2, -(1 / 2), 0⟩ : P3 ℚ)]).map roundP3, [(0, 1)],
        some (round4 (1 / 2))) :=
  ⟨by norm_num, format_roundtrip [⟨1 / 2, -(1 / 2), 0⟩] [(0, 1)] (1 / 2) (by norm_num)⟩

theorem dropWhile_all_true {p : Char → Bool} :
    ∀ l : List Char, (∀ c ∈ l, p c = true) → l.dropWhile p = [] := by
  intro l
  induction l with
  | nil => intro _; rfl
  | cons c t ih =>
    intro h
    rw [List.dropWhile_cons, if_pos (h c (List.mem_cons_self c t)),
      ih fun c' hc' => h c' (List.mem_cons_of_mem c hc')]

theorem stripChars_all_space (raw : List Char) (h : ∀ c ∈ raw, isPySpace c = true) :
    stripChars raw = [] := by
  rw [stripChars, dropWhile_all_true raw h]
  rfl

theorem parseLine_isSome (st : ParseSt) (raw : List Char) (h : goodLine raw = true) :
    ∃ st', parseLine st raw = some st' := by
  simp only [goodLine, Bool.and_eq_true] at h
  obtain ⟨h1, h2⟩ := h
  simp only [parseLine]
  split
  · exact ⟨_, rfl⟩
  · split
    · exact ⟨_, rfl⟩
    · split
      · exact ⟨_, rfl⟩
      · split
        · exact ⟨_, rfl⟩
        · split
          · -- vertex section
            split
            · rename_i g1 g2 g3 heq
              rw [heq] at h1
              simp only [Bool.and_eq_true, Option.isSome_iff_exists] at h1
              obtain ⟨⟨⟨a, ha⟩, ⟨b, hb⟩⟩, ⟨c, hc⟩⟩ := h1
              rw [ha, hb, hc]
              exact ⟨_, rfl⟩
            · exact ⟨_, rfl⟩
          · -- edge section
            split
            · exact ⟨_, rfl⟩
            · exact ⟨_, rfl⟩
          · -- midradius section
            split
            · rename_i hcond
              rw [Bool.and_eq_true] at hcond
              rw [if_pos hcond] at h2
              rw [Option.isSome_iff_exists] at h2
              obtain ⟨m, hm⟩ := h2
              rw [hm]
              exact ⟨_, rfl⟩
            · exact ⟨_, rfl⟩
          · exact ⟨_, rfl⟩

theorem foldlM_parseLine_isSome :
    ∀ (lines : List (List Char)) (st : ParseSt),
      (∀ l ∈ lines, goodLine l = true) →
      ∃ st', lines.foldlM parseLine st = some st' := by
  intro lines
  induction lines with
  | nil => intro st _; exact ⟨st, rfl⟩
  | cons l t ih =>
    intro st h
    obtain ⟨st1, h1⟩ := parseLine_isSome st l (h l (List.mem_cons_self l t))
    rw [List.foldlM_cons, h1, Option.bind_eq_bind, Option.some_bind]
    exact ih st1 fun l' hl' => h l' (List.mem_cons_of_mem l hl')

/-- C5 (amended): the decoder is tolerant of non-matching lines — blank or
all-whitespace lines are ignored with the state unchanged, an ASCII
vertex-section line failing the vertex regex is silently dropped, and decoding
never errors on ASCII input every line of which is `goodLine` (its
regex-matched numeric captures are valid numerals).  The ASCII restriction is
where the model's digit class and Python's Unicode-aware `\d` coincide (the
record files are ASCII).  Decoding is not error-free on every input: a line
that matches its section's regex but whose capture is not a valid numeral
(such as `1.2.3`) raises, see the counterexample. -/
theorem parse_polyhedron_file_tolerant :
    (∀ content : List Char, (∀ c ∈ content, c.toNat < 128) →
      (∀ l ∈ splitOnC '\n' content, goodLine l = true) →
      ∃ r, parse_polyhedron_file content = some r) ∧
    (∀ (st : ParseSt) (raw : List Char), (∀ c ∈ raw, isPySpace c = true) →
      parseLine st raw = some st) ∧
    (∀ (st : ParseSt) (raw : List Char), (∀ c ∈ raw, c.toNat < 128) →
      st.sec = Sect.vertSec →
      leadsWith ("VERTICES:".toList) (stripChars raw) = false →
      leadsWith ("EDGES:".toList) (stripChars raw) = false →
      leadsWith ("MIDRADIUS:".toList) (stripChars raw) = false →
      matchVertexLine (stripChars raw) = none →
      parseLine st raw = some st) := by
  refine ⟨?_, ?_, ?_⟩
  · intro content _ h
    obtain ⟨st', hst⟩ := foldlM_parseLine_isSome (splitOnC '\n' content) _ h
    refine ⟨(st'.vertices, st'.edges, st'.midradius), ?_⟩
    rw [parse_polyhedron_file, hst]
    rfl
  · intro st raw h
    have hstrip := stripChars_all_space raw h
    simp only [parseLine, hstrip]
    rfl
  · intro st raw _ hs hV hE hM hm
    simp only [parseLine, hV, hE, hM, hs, hm, Bool.false_eq_true, if_false]
    rcases hie : (stripChars raw).isEmpty with _ | _ <;> simp [hie]

/-- Witness for C5 on a three-line ASCII text whose middle line matches no
pattern (it is silently dropped) and whose vertex line parses. -/
theorem parse_polyhedron_file_tolerant_witness :
    (∀ c ∈ ("VERTICES:\nzzz\n0:1.5,2.25,3.125".toList), c.toNat < 128) ∧
    (∀ l ∈ splitOnC '\n' ("VERTICES:\nzzz\n0:1.5,2.25,3.125".toList),
      goodLine l = true) ∧
    ∃ r, parse_polyhedron_file ("VERTICES:\nzzz\n0:1.5,2.25,3.125".toList) = some r :=
  ⟨by decide, by decide, parse_polyhedron_file_tolerant.1 _ (by decide) (by decide)⟩

/-- C5 counterexample: on `"VERTICES:\n0:1.2.3,4,5"` the vertex line matches
the regex `^\d+:([-\d.]+),([-\d.]+),([-\d.]+)$` (the class `[-\d.]` admits
repeated dots), but `float("1.2.3")` raises a `ValueError`, so
`parse_polyhedron_file` raises instead of skipping the malformed line. -/
theorem parse_polyhedron_file_counterexample :
    parse_polyhedron_file ("VERTICES:\n0:1.2.3,4,5".toList) = none := by
  decide
